import Mathlib

/-!
Shallow embedding of the `mempool` fixed-segment allocator
(src/src/mempool.h, src/src/mempool.cpp, src/src/mempool.tpp).

Machine integers are modelled as `Nat` with explicit truncation (`% 2^w`)
exactly where the C code narrows a value (e.g. the `uint8_t cellIndex` in
`mempool::release`, the `uint16_t offset`).  Pointers into the data arena
are modelled as byte offsets from `_buffer`; pointers into the bitmap
arena are modelled structurally: the flat `_pool_buffer` is partitioned by
`_pool_ptr[i]` into disjoint per-segment regions of `(cellCount+31)/32 + 1`
words each, so each region is represented as a `Pool` record (word 0 =
group mask, words 1.. = cell masks).  Undefined behaviour of the C code
(out-of-bounds array accesses, `__builtin_ctz(0)`, shifts by ≥ 32) is made
explicit: the corresponding operation returns a distinguished `ub`-style
result (`Option`/dedicated constructor) rather than silently choosing a
value.
-/

namespace Mempool

/-- Modelled from the spec: the allocation granularity `SEGMENT_STEP` is a
build-level constant whose definition is not under src/; the spec fixes the
step to 4 bytes, which also matches the hard-coded `offset >> 2` in
`mempool::release` and `_segment_sizes[i] >> 2` in `mempool::begin`. -/
def SEGMENT_STEP : Nat := 4

/-- Modelled from the spec: `SEGMENT_LOG2` is the log2 of `SEGMENT_STEP`,
used by `mempool::alloc` as `>> SEGMENT_LOG2`; with step 4 it is 2. -/
def SEGMENT_LOG2 : Nat := 2

/-- Value of the C literal 0xFFFFFFFF (a full 32-bit mask). -/
def U32MAX : Nat := 4294967295

/-- Caller-supplied descriptor `struct segment` (mempool.h): `count` is a
`uint16_t` cell count, `size` a `uint8_t` cell size in units of
`SEGMENT_STEP`. -/
structure segment where
  count : Nat
  size : Nat
deriving DecidableEq

/-- Well-formedness of a descriptor as enforced by the C field types:
`count` fits in `uint16_t` and `size` fits in `uint8_t`. -/
def segTyped (s : segment) : Prop := s.count < 65536 ∧ s.size < 256

instance (s : segment) : Decidable (segTyped s) := by
  unfold segTyped; infer_instance

/-- Fuel-bounded count of trailing zero bits, the model of
`__builtin_ctz` restricted to 32-bit inputs: `ctzAux 32 n` is the index of
the lowest set bit of `n` for `0 < n < 2^32`, and 32 for `n = 0` (where the
C builtin is undefined; callers flag that case separately). -/
def ctzAux : Nat → Nat → Nat
  | 0, _ => 0
  | fuel+1, n => if n % 2 = 1 then 0 else ctzAux fuel (n / 2) + 1

/-- Model of `__builtin_ctz` on a 32-bit value. -/
def ctz32 (n : Nat) : Nat := ctzAux 32 n

/-- Bitwise complement of a 32-bit value (the C unary `~` on `uint32_t`). -/
def compl32 (x : Nat) : Nat := x ^^^ U32MAX

/-- Arduino macro `bitSet(v, b)`: `v |= (1UL << b)`. -/
def bitSet32 (v b : Nat) : Nat := v ||| (1 <<< b)

/-- Arduino macro `bitClear(v, b)`: `v &= ~(1UL << b)` (32-bit `~`). -/
def bitClear32 (v b : Nat) : Nat := v &&& compl32 (1 <<< b)

/-- mempool::_prepare_mask (mempool.cpp:172-177): returns 0 for `c = 0`,
otherwise `0xFFFFFFFF << c` truncated to 32 bits.  The argument is a
`uint8_t`; for `32 ≤ c` the C shift is undefined behaviour, so theorems
only evaluate this at `c ≤ 31` (cell counts ≤ 992). -/
def _prepare_mask (c : Nat) : Nat :=
  if c = 0 then 0 else (U32MAX <<< c) % 2 ^ 32

/-- Number of 32-bit cell-mask words of a pool: `(_cell_count[i] + 31) / 32`. -/
def numGroups (cnt : Nat) : Nat := (cnt + 31) / 32

/-- Bitmap region of one segment inside `_pool_buffer`: word
`_pool_ptr[i][0]` is `groupMask`, words `_pool_ptr[i][1..]` are
`cellMasks`. -/
structure Pool where
  groupMask : Nat
  cellMasks : List Nat
deriving DecidableEq

/-- Mask initialization of one pool by mempool::begin (mempool.cpp:145-149):
the region is zero-initialized (`new uint32_t[_pool_size]{}`), then word 0
is set to `_prepare_mask((cellCount+31)/32)` and word `(cellCount+31)/32`
to `_prepare_mask(cellCount % 32)`.  For `cellCount = 0` both writes hit
word 0 (the group mask). -/
def initPool (cnt : Nat) : Pool :=
  let ng := numGroups cnt
  if ng = 0 then
    { groupMask := _prepare_mask (cnt % 32), cellMasks := [] }
  else
    { groupMask := _prepare_mask (ng % 256),
      cellMasks := List.replicate (ng - 1) 0 ++ [_prepare_mask (cnt % 32)] }

/-- Loop body of mempool::_get_next_segment (mempool.cpp:153-163), carrying
the running index, the best index `ret` and best size `find`
(initialized to `(uint16_t)-1 = 65535`). -/
def _gns_go (current : Nat) : List segment → Nat → Nat × Nat → Nat × Nat
  | [], _, acc => acc
  | s :: rest, i, acc =>
    if current < s.size ∧ s.size < acc.2 then _gns_go current rest (i+1) (i, s.size)
    else _gns_go current rest (i+1) acc

/-- mempool::_get_next_segment: index of the descriptor with the smallest
size strictly greater than `current` (first occurrence wins ties via the
strict `<` on `find`); returns 0 when no such descriptor exists. -/
def _get_next_segment (arr : List segment) (current : Nat) : Nat :=
  (_gns_go current arr 0 (0, 65535)).1

/-- Loop body of mempool::_lookup_segment (mempool.cpp:165-170). -/
def _lookup_go (size : Nat) : List Nat → Nat → Int
  | [], _ => -1
  | s :: rest, i => if size ≤ s then Int.ofNat i else _lookup_go size rest (i+1)

/-- mempool::_lookup_segment: first index whose stored byte size is ≥
`size`, or −1. -/
def _lookup_segment (sizes : List Nat) (size : Nat) : Int :=
  _lookup_go size sizes 0

/-- Lookup-table construction of mempool::begin (mempool.cpp:119-122):
entry `i-1` is `_lookup_segment(i * SEGMENT_STEP)` for `i = 1 .. n`. -/
def buildLookup (sizes : List Nat) (n : Nat) : List Int :=
  (List.range n).map (fun i => _lookup_segment sizes ((i + 1) * SEGMENT_STEP))

/-- Magic number and shift computed by mempool::begin (mempool.cpp:132-143)
for a resolved byte size: non-powers of two get
`((65536 + (size>>2) - 1) / (size>>2), 16)`, powers of two get
`(1, __builtin_ctz(size))`. -/
def magicShiftFor (s : Nat) : Nat × Nat :=
  if s &&& (s - 1) ≠ 0 then ((65536 + (s >>> 2) - 1) / (s >>> 2), 16)
  else (1, ctz32 s)

/-- Segment base offsets: `_segment_ptr[0] = _buffer`,
`_segment_ptr[i+1] = _segment_ptr[i] + _segment_sizes[i] * _cell_count[i]`
(mempool.cpp:124-130), as byte offsets from `_buffer`. -/
def basesGo : List (Nat × Nat) → Nat → List Nat
  | [], _ => []
  | p :: rest, acc => acc :: basesGo rest (acc + p.1 * p.2)

/-- Offsets of all segment base pointers from `_buffer`. -/
def bases (sizes cnts : List Nat) : List Nat := basesGo (sizes.zip cnts) 0

/-- Mutable state of a `mempool` object.  Arrays are lists (empty = not
allocated); `initialized` is `_initialized`.  `pools` models the
partitioned `_pool_buffer` (see file header), `segment_base` the
`_segment_ptr` array as offsets from `_buffer`. -/
structure MState where
  initialized : Bool := false
  segment_count : Nat := 0
  segment_sizes : List Nat := []
  cell_count : List Nat := []
  magic_number : List Nat := []
  segment_shift : List Nat := []
  max_segment_size : Nat := 0
  segment_lookup : List Int := []
  segment_lookup_count : Nat := 0
  segment_base : List Nat := []
  pools : List Pool := []
  buffer_size : Nat := 0
  pool_size : Nat := 0
deriving DecidableEq

/-- mempool::clean (mempool.cpp:11-25): `delete[]`s every array.  It does
NOT touch `_initialized`, `_segment_count`, `_buffer_size`, `_pool_size`
or `_max_segment_size` — the scalar fields keep their values. -/
def cleanM (st : MState) : MState :=
  { st with segment_sizes := [], cell_count := [], magic_number := [],
            segment_shift := [], segment_lookup := [], segment_base := [],
            pools := [] }

/-- Sorting/validation loop of mempool::begin (mempool.cpp:78-98), run for
`count` iterations (`fuel` counts the remaining ones, `i` is the loop
index).  Each iteration first rejects `segs[i].size == 0`, then places the
descriptor selected by `_get_next_segment`, rejecting a resolved size
> 64.  Returns the placed byte sizes and cell counts, or `none` when the
loop `clean()`s and `begin` returns false.  (`segs.get? i` and
`segs.get? ix` never miss when `fuel + i ≤ segs.length`.) -/
def beginLoop (segs : List segment) :
    Nat → Nat → Nat → List Nat → List Nat → Option (List Nat × List Nat)
  | 0, _, _, sizes, cnts => some (sizes, cnts)
  | fuel+1, i, current, sizes, cnts =>
    match segs.get? i with
    | none => none
    | some si =>
      if si.size = 0 then none
      else
        match segs.get? (_get_next_segment segs current) with
        | none => none
        | some t =>
          let sz := t.size * SEGMENT_STEP
          if 64 < sz then none
          else beginLoop segs fuel (i+1) t.size (sizes ++ [sz]) (cnts ++ [t.count])

/-- Result of mempool::begin: `ok`/`fail` carry the resulting object state
(the C function returns `true`/`false`); `ub` marks the out-of-bounds read
`_segment_sizes[count - 1]` that the code performs when `count = 0`
(mempool.cpp:100, with `count - 1 = -1` after integer promotion). -/
inductive BeginOut where
  | ub
  | fail (st : MState)
  | ok (st : MState)
deriving DecidableEq

/-- mempool::begin (mempool.cpp:27-151).  Metadata `new[]` allocations are
modelled as always succeeding (their failure is environment
nondeterminism); note the code sets `_initialized = true` *before* the
validation loop, so validation failures leave `_initialized` set. -/
def beginM (st : MState) (segs : List segment) : BeginOut :=
  let count := segs.length
  if st.initialized then .fail st
  else if 64 < count then .fail st
  else
    let st1 : MState :=
      { st with initialized := true, segment_count := count, buffer_size := 0 }
    match beginLoop segs count 0 0 [] [] with
    | none => .fail (cleanM st1)
    | some (sizes, cnts) =>
      match sizes.get? (count - 1) with
      | none => .ub
      | some mx =>
        let lc := mx / SEGMENT_STEP
        .ok { st1 with
          segment_sizes := sizes,
          cell_count := cnts,
          magic_number := sizes.map (fun s => (magicShiftFor s).1),
          segment_shift := sizes.map (fun s => (magicShiftFor s).2),
          max_segment_size := mx,
          segment_lookup := buildLookup sizes lc,
          segment_lookup_count := lc,
          segment_base := bases sizes cnts,
          pools := cnts.map initPool,
          buffer_size := (sizes.zip cnts).foldl (fun a p => a + p.1 * p.2) 0,
          pool_size := st.pool_size + cnts.foldl (fun a c => a + numGroups c + 1) 0 }

/-- Outcome of the in-pool part of mempool::alloc: `ub` marks
`__builtin_ctz(0)` (cell word already full while its group bit was clear)
or an out-of-bounds pool-word read. -/
inductive PoolAllocOut where
  | ub
  | fail
  | ok (cell : Nat) (p : Pool)

/-- Free-cell scan of mempool::alloc (mempool.cpp:253-266) inside one pool:
lowest clear group bit, bounds check against `(cellCount+31)/32`, lowest
clear cell bit, `bitSet`, and group-bit update when the word becomes full. -/
def allocPoolCore (cnt : Nat) (p : Pool) : PoolAllocOut :=
  let pi := ctz32 (compl32 p.groupMask)
  if numGroups cnt ≤ pi then .fail
  else
    match p.cellMasks.get? pi with
    | none => .ub
    | some cm =>
      if cm = U32MAX then .ub
      else
        let ci := ctz32 (compl32 cm)
        let cm2 := bitSet32 cm ci
        let gm2 := if cm2 = U32MAX then bitSet32 p.groupMask pi else p.groupMask
        .ok (pi * 32 + ci) { groupMask := gm2, cellMasks := p.cellMasks.set pi cm2 }

/-- Result of mempool::alloc: `ok off st` is a non-null pointer
`_buffer + off`; `fail st` is `nullptr`; `ub` marks an out-of-bounds read
(in particular the lookup-table index −1 reached when `size = 0`);
`fuelout` is exhaustion of the recursion fuel (the C code recurses
unboundedly; theorem C10 shows fuel `_segment_count + 1` always
suffices). -/
inductive AllocOut where
  | ub
  | fuelout
  | fail (st : MState)
  | ok (off : Nat) (st : MState)
deriving DecidableEq

/-- mempool::alloc (mempool.cpp:226-274).  The escalation branch
(mempool.cpp:243-252) re-enters alloc with the next segment's resolved
size; recursion is fuel-bounded. -/
def allocFuel : Nat → MState → Nat → AllocOut
  | 0, _, _ => .fuelout
  | fuel+1, st, size =>
    if st.max_segment_size < size then .fail st
    else if size = 0 then .ub
    else
      match st.segment_lookup.get? (((size + SEGMENT_STEP - 1) >>> SEGMENT_LOG2) - 1) with
      | none => .ub
      | some sgI =>
        let sg := (sgI % 256).toNat
        if st.segment_count ≤ sg then .fail st
        else
          match st.pools.get? sg, st.cell_count.get? sg with
          | some p, some cnt =>
            if p.groupMask = U32MAX then
              if sg < st.segment_count - 1 then
                match st.segment_sizes.get? (sg + 1) with
                | none => .ub
                | some s2 => allocFuel fuel st s2
              else .fail st
            else
              match allocPoolCore cnt p with
              | .ub => .ub
              | .fail => .fail st
              | .ok cell p2 =>
                match st.segment_base.get? sg, st.segment_sizes.get? sg with
                | some b, some s =>
                  .ok (b + cell * s) { st with pools := st.pools.set sg p2 }
                | _, _ => .ub
          | _, _ => .ub

/-- Result of the binary search in mempool::release (mempool.cpp:282-292):
`found sg` is the greatest index with `_segment_ptr[sg] ≤ ptr`; `notFound`
is the `sg == -1` early return; `ub` marks an out-of-bounds
`_segment_ptr[m]` read (reachable in C only through the `uint8_t`
wrap-around `r = m - 1` at `m = 0`, modelled by `(m + 255) % 256`). -/
inductive SearchOut where
  | ub
  | notFound
  | found (sg : Nat)

/-- Binary search loop of mempool::release; `l`, `r` are the `uint8_t`
bounds, `sg` the best index so far. -/
def bsearchGo (base : List Nat) (off : Nat) :
    Nat → Nat → Nat → Option Nat → SearchOut
  | 0, _, _, _ => .ub
  | fuel+1, l, r, sg =>
    if r < l then
      match sg with
      | none => .notFound
      | some s => .found s
    else
      let m := (l + r) / 2
      match base.get? m with
      | none => .ub
      | some b =>
        if off < b then bsearchGo base off fuel l ((m + 255) % 256) sg
        else bsearchGo base off fuel (m + 1) r (some m)

/-- mempool::release (mempool.cpp:276-314) on the pointer `_buffer + off`
(so the null and `ptr < _buffer` rejections need no model; `off ≥
_buffer_size` is the `ptr >= _buffer + _buffer_size` rejection).  `offset`
is a `uint16_t`, `cellIndex` a `uint8_t`: both truncations are explicit.
Returns `none` on an out-of-bounds access (undefined behaviour in C). -/
def releaseM (st : MState) (off : Nat) : Option MState :=
  if st.initialized = false then some st
  else if st.buffer_size ≤ off then some st
  else
    match bsearchGo st.segment_base off 512 0 ((st.segment_count + 255) % 256) none with
    | .ub => none
    | .notFound => some st
    | .found sg =>
      match st.segment_base.get? sg, st.segment_sizes.get? sg,
            st.magic_number.get? sg, st.segment_shift.get? sg,
            st.pools.get? sg with
      | some b, some s, some mg, some sh, some p =>
        let offset := (off - b) % 65536
        let cellIndex :=
          if s &&& (s - 1) ≠ 0 then (((offset >>> 2) * mg) >>> 16) % 256
          else (offset >>> sh) % 256
        let pi := cellIndex >>> 5
        let bi := cellIndex &&& 31
        match p.cellMasks.get? pi with
        | none => none
        | some cm =>
          let p2 : Pool := ⟨bitClear32 p.groupMask pi, p.cellMasks.set pi (bitClear32 cm bi)⟩
          some { st with pools := st.pools.set sg p2 }
      | _, _, _, _, _ => none

/-- Offset-to-cell-index recovery of mempool::release (mempool.cpp:297-306)
as a function of the resolved byte size, with the magic number and shift
exactly as mempool::begin computes them (mempool.cpp:132-143).  `off` is
truncated to `uint16_t` and the result to `uint8_t` as in the code. -/
def offsetToCellIndex (s off : Nat) : Nat :=
  let offset := off % 65536
  if s &&& (s - 1) ≠ 0 then
    (((offset >>> 2) * (magicShiftFor s).1) >>> 16) % 256
  else
    (offset >>> (magicShiftFor s).2) % 256

/-- Cell `c` of a pool is used iff bit `c % 32` of cell-mask word `c / 32`
is set. -/
def poolUsed (p : Pool) (c : Nat) : Bool :=
  (p.cellMasks.getD (c / 32) 0).testBit (c % 32)

/-- Cell `c` of segment `sg` is used in state `st`. -/
def stUsed (st : MState) (sg c : Nat) : Bool :=
  poolUsed (st.pools.getD sg ⟨0, []⟩) c

/-- Address (as an offset from `_buffer`) of cell `c` of segment `sg`:
`_segment_ptr[sg] + c * _segment_sizes[sg]`. -/
def offsetOf (st : MState) (sg c : Nat) : Nat :=
  st.segment_base.getD sg 0 + c * st.segment_sizes.getD sg 0

/-! ### The two-level bitmap invariant (the data-model invariant of §3 of
the spec): group bit g set iff cell-mask word g is entirely 1, padding
bits beyond `cellCount` (in the last cell word) and beyond
`(cellCount+31)/32` (in the group mask) set. -/

def PoolInv (cnt : Nat) (p : Pool) : Prop :=
  p.cellMasks.length = numGroups cnt ∧
  p.groupMask < 2 ^ 32 ∧
  (∀ g, g < numGroups cnt → p.cellMasks.getD g 0 < 2 ^ 32) ∧
  (∀ g, g < numGroups cnt → (p.groupMask.testBit g = true ↔ p.cellMasks.getD g 0 = U32MAX)) ∧
  (∀ g, g < 32 → numGroups cnt ≤ g → p.groupMask.testBit g = true) ∧
  (∀ c, c < 32 * numGroups cnt → cnt ≤ c → poolUsed p c = true)

instance (cnt : Nat) (p : Pool) : Decidable (PoolInv cnt p) := by
  unfold PoolInv; infer_instance

/-- Well-formedness of an initialized allocator state, as established by a
successful `begin` on valid descriptors: the stored arrays have segment
count length, sizes are multiples of the step in `[4, 64]` and strictly
increasing, cell counts are in `[1, 992]`, the derived tables (magic
numbers, shifts, lookup table, base offsets, buffer size, max size) match
their construction from the sizes and counts, and every pool satisfies the
bitmap invariant. -/
def StWF (st : MState) : Prop :=
  st.initialized = true ∧
  1 ≤ st.segment_count ∧ st.segment_count ≤ 64 ∧
  st.segment_sizes.length = st.segment_count ∧
  st.cell_count.length = st.segment_count ∧
  st.magic_number = st.segment_sizes.map (fun s => (magicShiftFor s).1) ∧
  st.segment_shift = st.segment_sizes.map (fun s => (magicShiftFor s).2) ∧
  st.segment_base = bases st.segment_sizes st.cell_count ∧
  st.pools.length = st.segment_count ∧
  (∀ i, i < st.segment_count →
    st.segment_sizes.getD i 0 % 4 = 0 ∧ 4 ≤ st.segment_sizes.getD i 0 ∧
      st.segment_sizes.getD i 0 ≤ 64) ∧
  List.Pairwise (· < ·) st.segment_sizes ∧
  (∀ i, i < st.segment_count →
    1 ≤ st.cell_count.getD i 0 ∧ st.cell_count.getD i 0 ≤ 992) ∧
  st.max_segment_size = st.segment_sizes.getD (st.segment_count - 1) 0 ∧
  st.segment_lookup = buildLookup st.segment_sizes (st.max_segment_size / SEGMENT_STEP) ∧
  st.buffer_size = (st.segment_sizes.zip st.cell_count).foldl (fun a p => a + p.1 * p.2) 0 ∧
  (∀ i, i < st.segment_count →
    PoolInv (st.cell_count.getD i 0) (st.pools.getD i ⟨0, []⟩))

instance (st : MState) : Decidable (StWF st) := by
  unfold StWF; infer_instance

/-- Discriminator: the `begin` call returned false. -/
def BeginOut.isFail : BeginOut → Bool
  | .fail _ => true
  | _ => false

/-- Discriminator: the `begin` call returned true. -/
def BeginOut.isOk : BeginOut → Bool
  | .ok _ => true
  | _ => false

/-- State carried by a `begin` result (for failed calls, the state of the
object after the failing call; the C object likewise persists). -/
def beginState (segs : List segment) : MState :=
  match beginM {} segs with
  | .ok st => st
  | .fail st => st
  | .ub => {}

/-- Run `n` consecutive `alloc(sz)` calls, collecting the returned
offsets; `none` if any of them returns null (or hits undefined
behaviour). -/
def allocList : MState → Nat → Nat → Option (List Nat × MState)
  | st, _, 0 => some ([], st)
  | st, sz, n+1 =>
    match allocFuel 65 st sz with
    | .ok off st2 =>
      match allocList st2 sz n with
      | some (offs, st3) => some (off :: offs, st3)
      | none => none
    | _ => none

/-- Allocator histories: from `st`, a sequence of `alloc` and `release`
calls in which every released pointer is one returned by an earlier
`alloc` of the sequence and not yet released (each returned pointer is
released before any reuse); `live` is the stack of outstanding returned
offsets. -/
inductive Trace : MState → MState → List Nat → Prop where
  | nil (st : MState) : Trace st st []
  | alloc (st st1 st2 : MState) (live : List Nat) (sz off : Nat)
      (h : Trace st st1 live) (ha : allocFuel 65 st1 sz = .ok off st2) :
      Trace st st2 (off :: live)
  | release (st st1 st2 : MState) (l1 l2 : List Nat) (off : Nat)
      (h : Trace st st1 (l1 ++ off :: l2))
      (hr : releaseM st1 off = some st2) :
      Trace st st2 (l1 ++ l2)

/-- States reachable by the allocator's public operations: a successful
`begin` on an uninitialized object with valid descriptors (cell counts in
`[1, 992]`, pairwise-distinct unit sizes in `[1, 16]`, `1 ≤ count ≤ 64`),
followed by any succession of successful `alloc` calls and `release`
calls with valid arguments (addresses of cells previously handed out by
`alloc`; `release` with valid arguments per the claim). -/
inductive Reach : MState → Prop where
  | beginOk (st0 : MState) (segs : List segment) (st : MState)
      (h0 : st0.initialized = false)
      (hnodup : (segs.map (fun s => s.size)).Nodup)
      (hpos : ∀ s ∈ segs, 1 ≤ s.size) (hle : ∀ s ∈ segs, s.size ≤ 16)
      (hcnt : ∀ s ∈ segs, 1 ≤ s.count ∧ s.count ≤ 992)
      (hc1 : 1 ≤ segs.length) (hc64 : segs.length ≤ 64)
      (heq : beginM st0 segs = .ok st) : Reach st
  | alloc (st : MState) (sz off : Nat) (st2 : MState)
      (h : Reach st) (ha : allocFuel 65 st sz = .ok off st2) : Reach st2
  | release (st : MState) (sg c : Nat) (st2 : MState)
      (h : Reach st) (hsg : sg < st.segment_count) (hc : c < st.cell_count.getD sg 0)
      (hr : releaseM st (offsetOf st sg c) = some st2) : Reach st2

/-- Release a list of offsets in order; `none` if any release hits
undefined behaviour. -/
def releaseList : MState → List Nat → Option MState
  | st, [] => some st
  | st, off :: rest =>
    match releaseM st off with
    | some st2 => releaseList st2 rest
    | none => none

/-- The lookup-table index expression of mempool::alloc (mempool.cpp:233),
`((size + SEGMENT_STEP - 1) >> SEGMENT_LOG2) - 1`, evaluated in C `int`
arithmetic (for non-negative operands the arithmetic right shift by
`SEGMENT_LOG2 = 2` is division by 4). -/
def lookupIndexC (size : Nat) : Int :=
  ((size : Int) + SEGMENT_STEP - 1) / SEGMENT_STEP - 1

/-- The allocator of the spec's concrete scenario (§8): segments
`[{count:4, size:1}, {count:2, size:4}]`, i.e. four 4-byte cells and two
16-byte cells. -/
def exSt : MState := beginState [⟨4, 1⟩, ⟨2, 4⟩]

/-- Single-segment allocator with 257 cells of 4 bytes — the smallest
shape on which release's `uint8_t cellIndex` truncation is observable. -/
def big257 : MState := beginState [⟨257, 1⟩]

/-- Offsets handed out by 257 consecutive `alloc(4)` calls on `big257`. -/
def c8offs : List Nat :=
  match allocList big257 4 257 with
  | some (offs, _) => offs
  | none => []

/-- State of `big257` after 257 consecutive `alloc(4)` calls. -/
def c8midState : MState :=
  match allocList big257 4 257 with
  | some (_, stN) => stN
  | none => {}

/-- State after additionally releasing all 257 returned offsets (newest
first). -/
def c8finalState : MState :=
  match releaseList c8midState c8offs.reverse with
  | some s => s
  | none => {}

/-- Two-segment escalation scenario: one 4-byte cell and one 16-byte
cell. -/
def escSt : MState := beginState [⟨1, 1⟩, ⟨1, 4⟩]

/-- State of `escSt` after its single 4-byte cell is allocated. -/
def escSt1 : MState :=
  match allocFuel 65 escSt 4 with
  | .ok _ s2 => s2
  | _ => {}

/-- State of `exSt` after one `alloc(4)`. -/
def exAlloc1 : MState :=
  match allocFuel 65 exSt 4 with
  | .ok _ s2 => s2
  | _ => {}

/-- State of `exAlloc1` after releasing the cell it handed out. -/
def exRoundTrip : MState :=
  match releaseM exAlloc1 0 with
  | some s => s
  | none => {}


/-! ### Bit-level lemmas -/

theorem U32MAX_eq : U32MAX = 2 ^ 32 - 1 := rfl

theorem U32MAX_lt : U32MAX < 2 ^ 32 := by rw [U32MAX_eq]; omega

theorem testBit_U32MAX (i : Nat) : U32MAX.testBit i = decide (i < 32) := by
  rw [U32MAX_eq]; exact Nat.testBit_two_pow_sub_one 32 i

theorem compl32_lt (x : Nat) (h : x < 2 ^ 32) : compl32 x < 2 ^ 32 :=
  Nat.xor_lt_two_pow h U32MAX_lt

theorem compl32_testBit (x i : Nat) (h : x < 2 ^ 32) :
    (compl32 x).testBit i = (decide (i < 32) && !x.testBit i) := by
  unfold compl32
  rw [Nat.testBit_xor, testBit_U32MAX]
  by_cases hi : i < 32
  · simp [hi, Bool.xor_comm]
  · have hx : x.testBit i = false :=
      Nat.testBit_lt_two_pow (lt_of_lt_of_le h (Nat.pow_le_pow_right (by norm_num) (le_of_not_lt hi)))
    simp [hi, hx]

theorem compl32_ne_zero (x : Nat) (hne : x ≠ U32MAX) : compl32 x ≠ 0 := by
  intro hc
  exact hne (Nat.xor_eq_zero.mp hc)

theorem ctzAux_spec : ∀ fuel n, n ≠ 0 → n < 2 ^ fuel →
    ctzAux fuel n < fuel ∧ n.testBit (ctzAux fuel n) = true ∧
    ∀ j, j < ctzAux fuel n → n.testBit j = false := by
  intro fuel
  induction fuel with
  | zero => intro n h0 h1; omega
  | succ f ih =>
    intro n h0 h1
    by_cases hp : n % 2 = 1
    · refine ⟨by simp [ctzAux, hp], ?_, ?_⟩
      · simp [ctzAux, hp, Nat.testBit_zero]
      · intro j hj; simp [ctzAux, hp] at hj
    · have hn2 : n / 2 ≠ 0 := by omega
      have hlt : n / 2 < 2 ^ f := by omega
      obtain ⟨ha, hb, hc⟩ := ih (n / 2) hn2 hlt
      have hres : ctzAux (f + 1) n = ctzAux f (n / 2) + 1 := by simp [ctzAux, hp]
      refine ⟨by omega, ?_, ?_⟩
      · rw [hres, Nat.testBit_succ]; exact hb
      · intro j hj
        rw [hres] at hj
        match j with
        | 0 => simp [Nat.testBit_zero, hp]
        | k + 1 => rw [Nat.testBit_succ]; exact hc k (by omega)

/-- Lowest clear bit of a non-full 32-bit mask, via `__builtin_ctz(~x)`. -/
theorem lowestClear_spec (x : Nat) (hlt : x < 2 ^ 32) (hne : x ≠ U32MAX) :
    ctz32 (compl32 x) < 32 ∧ x.testBit (ctz32 (compl32 x)) = false ∧
    ∀ j, j < ctz32 (compl32 x) → x.testBit j = true := by
  obtain ⟨ha, hb, hc⟩ :=
    ctzAux_spec 32 (compl32 x) (compl32_ne_zero x hne) (compl32_lt x hlt)
  refine ⟨ha, ?_, ?_⟩
  · rw [compl32_testBit x _ hlt] at hb
    simpa [ha] using hb
  · intro j hj
    have := hc j hj
    rw [compl32_testBit x j hlt] at this
    simpa [lt_trans hj ha] using this

theorem one_shiftLeft_eq (b : Nat) : (1 : Nat) <<< b = 2 ^ b := by
  rw [Nat.shiftLeft_eq, one_mul]

theorem bitSet32_testBit (v b i : Nat) :
    (bitSet32 v b).testBit i = (v.testBit i || decide (i = b)) := by
  unfold bitSet32
  rw [Nat.testBit_lor, one_shiftLeft_eq, Nat.testBit_two_pow]
  simp [eq_comm]

theorem bitSet32_lt (v b : Nat) (hv : v < 2 ^ 32) (hb : b < 32) :
    bitSet32 v b < 2 ^ 32 := by
  unfold bitSet32
  refine Nat.or_lt_two_pow hv ?_
  rw [one_shiftLeft_eq]
  exact Nat.pow_lt_pow_right (by norm_num) hb

theorem bitClear32_testBit (v b i : Nat) (hb : b < 32) :
    (bitClear32 v b).testBit i = (v.testBit i && (decide (i < 32) && !decide (i = b))) := by
  unfold bitClear32
  rw [Nat.testBit_land, one_shiftLeft_eq,
      compl32_testBit _ i (Nat.pow_lt_pow_right (by norm_num) hb),
      Nat.testBit_two_pow]
  simp [eq_comm]

theorem bitClear32_le (v b : Nat) : bitClear32 v b ≤ v := Nat.and_le_left

/-- A 32-bit word equals 0xFFFFFFFF iff all its 32 bits are set. -/
theorem eq_U32MAX_iff (x : Nat) (hlt : x < 2 ^ 32) :
    x = U32MAX ↔ ∀ i, i < 32 → x.testBit i = true := by
  constructor
  · intro h i hi; rw [h, testBit_U32MAX]; simpa using hi
  · intro h
    apply Nat.eq_of_testBit_eq
    intro i
    rw [testBit_U32MAX]
    by_cases hi : i < 32
    · simpa [hi] using h i hi
    · have : x.testBit i = false :=
        Nat.testBit_lt_two_pow (lt_of_lt_of_le hlt (Nat.pow_le_pow_right (by norm_num) (le_of_not_lt hi)))
      simpa [hi] using this

theorem and_31_eq (c : Nat) : c &&& 31 = c % 32 := by
  have := Nat.and_pow_two_sub_one_eq_mod c 5
  norm_num at this
  exact this

theorem shr5_eq (c : Nat) : c >>> 5 = c / 32 := by
  rw [Nat.shiftRight_eq_div_pow]

/-! ### Mask initialization lemmas -/

theorem prepare_mask_zero : _prepare_mask 0 = 0 := rfl

theorem prepare_mask_lt (c : Nat) : _prepare_mask c < 2 ^ 32 := by
  unfold _prepare_mask
  split
  · norm_num
  · exact Nat.mod_lt _ (by norm_num)

theorem prepare_mask_testBit (c i : Nat) (h1 : 1 ≤ c) (h2 : c ≤ 31) :
    (_prepare_mask c).testBit i = (decide (c ≤ i) && decide (i < 32)) := by
  unfold _prepare_mask
  rw [if_neg (by omega)]
  rw [Nat.testBit_mod_two_pow, Nat.testBit_shiftLeft, testBit_U32MAX]
  by_cases hi32 : i < 32
  · by_cases hci : c ≤ i
    · simp [hi32, hci, ge_iff_le]
      omega
    · simp [hi32, hci, ge_iff_le]
  · simp [hi32]

/-! ### List index helpers -/

theorem get?_eq_some_getD {α : Type} (l : List α) (n : Nat) (d : α) (h : n < l.length) :
    l.get? n = some (l.getD n d) := by
  rw [List.get?_eq_getElem?, List.getD_eq_getElem?_getD, List.getElem?_eq_getElem h]
  rfl

theorem getD_set_lt {α : Type} (l : List α) (m n : Nat) (a d : α) (hm : m < l.length) :
    (l.set m a).getD n d = if n = m then a else l.getD n d := by
  rw [List.getD_eq_getElem?_getD, List.getElem?_set]
  split
  · next h => subst h; simp [hm]
  · next h =>
    rw [if_neg (fun hh => h hh.symm), List.getD_eq_getElem?_getD]

theorem getD_eq_getElem {α : Type} (l : List α) (n : Nat) (d : α) (h : n < l.length) :
    l.getD n d = l[n] := by
  rw [List.getD_eq_getElem?_getD, List.getElem?_eq_getElem h]
  rfl

theorem initPool_groupMask (cnt : Nat) (h1 : 1 ≤ cnt) (h2 : cnt ≤ 992) :
    (initPool cnt).groupMask = _prepare_mask (numGroups cnt) := by
  have hng1 : 1 ≤ numGroups cnt := by unfold numGroups; omega
  have hng31 : numGroups cnt ≤ 31 := by unfold numGroups; omega
  unfold initPool
  rw [if_neg (by omega)]
  simp only []
  congr 1
  omega

theorem initPool_length (cnt : Nat) (h1 : 1 ≤ cnt) :
    (initPool cnt).cellMasks.length = numGroups cnt := by
  have hng1 : 1 ≤ numGroups cnt := by unfold numGroups; omega
  unfold initPool
  rw [if_neg (by omega)]
  simp [List.length_replicate]
  omega

theorem initPool_cellMask_getD (cnt g : Nat) (h1 : 1 ≤ cnt) (hg : g < numGroups cnt) :
    (initPool cnt).cellMasks.getD g 0 =
      if g = numGroups cnt - 1 then _prepare_mask (cnt % 32) else 0 := by
  have hng1 : 1 ≤ numGroups cnt := by unfold numGroups; omega
  unfold initPool
  rw [if_neg (by omega)]
  simp only []
  rw [List.getD_eq_getElem?_getD, List.getElem?_append]
  rw [List.length_replicate]
  by_cases hlt : g < numGroups cnt - 1
  · rw [if_pos hlt, List.getElem?_replicate, if_pos hlt, if_neg (by omega)]
    rfl
  · have hge : g = numGroups cnt - 1 := by omega
    rw [if_neg (by omega), if_pos hge]
    subst hge
    simp

/-- State of each cell right after `begin`: padding cells (indices in
`[cellCount, 32 * numGroups)`) are marked used, real cells are free. -/
theorem initPool_used (cnt c : Nat) (h1 : 1 ≤ cnt) (h2 : cnt ≤ 992)
    (hc : c < 32 * numGroups cnt) :
    poolUsed (initPool cnt) c = decide (cnt ≤ c) := by
  have hdiv : c / 32 < numGroups cnt := by unfold numGroups at hc ⊢; omega
  unfold poolUsed
  rw [initPool_cellMask_getD cnt (c / 32) h1 hdiv]
  by_cases hq : c / 32 = numGroups cnt - 1
  · rw [if_pos hq]
    by_cases hr : cnt % 32 = 0
    · have : _prepare_mask (cnt % 32) = 0 := by rw [hr]; rfl
      rw [this]
      have : cnt = 32 * numGroups cnt := by unfold numGroups; omega
      simp [Nat.zero_testBit]
      omega
    · rw [prepare_mask_testBit _ _ (by omega) (by omega)]
      have hmod : c % 32 < 32 := by omega
      have : (cnt % 32 ≤ c % 32) = (cnt ≤ c) := by
        unfold numGroups at hq hdiv
        apply propext
        constructor <;> (intro h; omega)
      simp [hmod, this]
  · rw [if_neg hq]
    have : c < cnt := by unfold numGroups at hq hdiv; omega
    simp [Nat.zero_testBit]
    omega

/-- The invariant holds right after `begin`, with every real cell free. -/
theorem initPool_inv (cnt : Nat) (h1 : 1 ≤ cnt) (h2 : cnt ≤ 992) :
    PoolInv cnt (initPool cnt) ∧ ∀ c, c < cnt → poolUsed (initPool cnt) c = false := by
  have hng1 : 1 ≤ numGroups cnt := by unfold numGroups; omega
  have hng31 : numGroups cnt ≤ 31 := by unfold numGroups; omega
  have hfree : ∀ c, c < cnt → poolUsed (initPool cnt) c = false := by
    intro c hc
    have : c < 32 * numGroups cnt := by unfold numGroups; omega
    rw [initPool_used cnt c h1 h2 this]
    simp
    omega
  refine ⟨⟨initPool_length cnt h1, ?_, ?_, ?_, ?_, ?_⟩, hfree⟩
  · rw [initPool_groupMask cnt h1 h2]; exact prepare_mask_lt _
  · intro g hg
    rw [initPool_cellMask_getD cnt g h1 hg]
    split
    · exact prepare_mask_lt _
    · norm_num
  · intro g hg
    rw [initPool_groupMask cnt h1 h2,
        prepare_mask_testBit _ _ (by omega) (by omega),
        initPool_cellMask_getD cnt g h1 hg]
    constructor
    · intro h
      simp at h
      omega
    · intro h
      exfalso
      split at h
      · by_cases hr : cnt % 32 = 0
        · rw [hr, prepare_mask_zero] at h
          exact absurd h.symm (by rw [U32MAX_eq]; norm_num)
        · have := congrArg (fun x => x.testBit 0) h
          simp only at this
          rw [prepare_mask_testBit _ _ (by omega) (by omega), testBit_U32MAX] at this
          simp at this
          omega
      · exact absurd h.symm (by rw [U32MAX_eq]; norm_num)
  · intro g h32 hg
    rw [initPool_groupMask cnt h1 h2,
        prepare_mask_testBit _ _ (by omega) (by omega)]
    simp [h32]
    omega
  · intro c hc hcnt
    rw [initPool_used cnt c h1 h2 hc]
    simpa using hcnt

/-! ### Pool-level allocation -/

/-- The escalation test of mempool::alloc reads exactly "every cell of the
pool is used": the group mask is all-ones iff no cell is free. -/
theorem groupMask_full_iff (cnt : Nat) (p : Pool) (hinv : PoolInv cnt p)
    (h1 : 1 ≤ cnt) (h2 : cnt ≤ 992) :
    (p.groupMask = U32MAX ↔ ∀ c, c < cnt → poolUsed p c = true) := by
  obtain ⟨hlen, hgmlt, hwlt, hcoh, hgpad, hcpad⟩ := hinv
  have hng1 : 1 ≤ numGroups cnt := by unfold numGroups; omega
  have hng31 : numGroups cnt ≤ 31 := by unfold numGroups; omega
  constructor
  · intro hfull c hc
    have hq : c / 32 < numGroups cnt := by unfold numGroups; omega
    have hbit : p.groupMask.testBit (c / 32) = true := by
      rw [hfull, testBit_U32MAX]; simp; omega
    have hword := (hcoh (c / 32) hq).mp hbit
    unfold poolUsed
    rw [hword, testBit_U32MAX]
    simp
    omega
  · intro hall
    rw [eq_U32MAX_iff _ hgmlt]
    intro g hg
    by_cases hgng : g < numGroups cnt
    · apply (hcoh g hgng).mpr
      rw [eq_U32MAX_iff _ (hwlt g hgng)]
      intro b hb
      have hcell : poolUsed p (32 * g + b) = true := by
        by_cases hlt : 32 * g + b < cnt
        · exact hall _ hlt
        · exact hcpad _ (by unfold numGroups at hgng ⊢; omega) (by omega)
      unfold poolUsed at hcell
      have hq : (32 * g + b) / 32 = g := by omega
      have hm : (32 * g + b) % 32 = b := by omega
      rwa [hq, hm] at hcell
    · exact hgpad g hg (by omega)

/-- Correctness of the free-cell scan (mempool.cpp:253-266): on a pool that
is not full it returns the lowest free cell, marks exactly that cell used,
and preserves the bitmap invariant. -/
theorem allocPoolCore_spec (cnt : Nat) (p : Pool) (hinv : PoolInv cnt p)
    (h1 : 1 ≤ cnt) (h2 : cnt ≤ 992) (hfull : p.groupMask ≠ U32MAX) :
    ∃ c p2, allocPoolCore cnt p = .ok c p2 ∧ c < cnt ∧ poolUsed p c = false ∧
      (∀ d, d < c → poolUsed p d = true) ∧ PoolInv cnt p2 ∧
      (∀ d, poolUsed p2 d = (poolUsed p d || decide (d = c))) := by
  obtain ⟨hlen, hgmlt, hwlt, hcoh, hgpad, hcpad⟩ := hinv
  have hng1 : 1 ≤ numGroups cnt := by unfold numGroups; omega
  have hng31 : numGroups cnt ≤ 31 := by unfold numGroups; omega
  obtain ⟨hpi32, hpibit, hpilow⟩ := lowestClear_spec p.groupMask hgmlt hfull
  set pi := ctz32 (compl32 p.groupMask) with hpidef
  have hping : pi < numGroups cnt := by
    by_contra hcon
    have := hgpad pi hpi32 (by omega)
    rw [this] at hpibit
    exact absurd hpibit (by simp)
  set cm := p.cellMasks.getD pi 0 with hcmdef
  have hget : p.cellMasks.get? pi = some cm := get?_eq_some_getD _ _ _ (by omega)
  have hcmne : cm ≠ U32MAX := by
    intro hc
    have := (hcoh pi hping).mpr hc
    rw [this] at hpibit
    exact absurd hpibit (by simp)
  have hcmlt : cm < 2 ^ 32 := hwlt pi hping
  obtain ⟨hci32, hcibit, hcilow⟩ := lowestClear_spec cm hcmlt hcmne
  set ci := ctz32 (compl32 cm) with hcidef
  set c := pi * 32 + ci with hcdef
  set cm2 := bitSet32 cm ci with hcm2def
  set gm2 := if cm2 = U32MAX then bitSet32 p.groupMask pi else p.groupMask with hgm2def
  have hcq : c / 32 = pi := by omega
  have hcm : c % 32 = ci := by omega
  have hcused : poolUsed p c = false := by
    unfold poolUsed
    rw [hcq, hcm, ← hcmdef]
    exact hcibit
  have hclt : c < cnt := by
    by_contra hcon
    have := hcpad c (by omega) (by omega)
    rw [this] at hcused
    exact absurd hcused (by simp)
  have heq : allocPoolCore cnt p = .ok c ⟨gm2, p.cellMasks.set pi cm2⟩ := by
    unfold allocPoolCore
    rw [← hpidef, if_neg (by omega), hget]
    simp only [if_neg hcmne]
  refine ⟨c, ⟨gm2, p.cellMasks.set pi cm2⟩, heq, hclt, hcused, ?_, ?_, ?_⟩
  · intro d hd
    have hdq : d / 32 ≤ pi := by omega
    unfold poolUsed
    by_cases hdpi : d / 32 = pi
    · rw [hdpi, ← hcmdef]
      exact hcilow (d % 32) (by omega)
    · have hbit := hpilow (d / 32) (by omega)
      have := (hcoh (d / 32) (by omega)).mp hbit
      rw [this, testBit_U32MAX]
      simp
      omega
  · have hcm2lt : cm2 < 2 ^ 32 := bitSet32_lt cm ci hcmlt hci32
    have hgm2lt : gm2 < 2 ^ 32 := by
      rw [hgm2def]
      split
      · exact bitSet32_lt _ pi hgmlt hpi32
      · exact hgmlt
    have hgm2bit : ∀ g, gm2.testBit g =
        (p.groupMask.testBit g || (decide (cm2 = U32MAX) && decide (g = pi))) := by
      intro g
      rw [hgm2def]
      split
      · next hc => rw [bitSet32_testBit]; simp [hc]
      · next hc => simp [hc]
    have hword2 : ∀ g, (p.cellMasks.set pi cm2).getD g 0 =
        if g = pi then cm2 else p.cellMasks.getD g 0 := by
      intro g
      exact getD_set_lt _ _ _ _ _ (by omega)
    refine ⟨by rw [List.length_set]; exact hlen, hgm2lt, ?_, ?_, ?_, ?_⟩
    · intro g hg
      rw [hword2 g]
      split
      · exact hcm2lt
      · exact hwlt g hg
    · intro g hg
      rw [hgm2bit g, hword2 g]
      by_cases hgpi : g = pi
      · subst hgpi
        rw [if_pos rfl]
        by_cases hc2 : cm2 = U32MAX
        · simp [hc2]
        · simp [hc2, hpibit]
      · rw [if_neg hgpi]
        simp [hgpi]
        simpa [List.getD_eq_getElem?_getD] using hcoh g hg
    · intro g h32 hg
      rw [hgm2bit g]
      rw [hgpad g h32 hg]
      simp
    · intro d hd hdc
      have hused : poolUsed p d = true := hcpad d hd hdc
      unfold poolUsed at hused ⊢
      rw [hword2 (d / 32)]
      split
      · next hdpi =>
        rw [hcm2def, bitSet32_testBit]
        rw [hdpi, ← hcmdef] at hused
        simp [hused]
      · exact hused
  · intro d
    unfold poolUsed
    rw [getD_set_lt _ _ _ _ _ (by omega)]
    by_cases hdpi : d / 32 = pi
    · rw [if_pos hdpi, hcm2def, bitSet32_testBit, hdpi, ← hcmdef]
      congr 1
      have : (d % 32 = ci) = (d = c) := by
        apply propext
        constructor <;> (intro h; omega)
      simp [this]
    · rw [if_neg hdpi]
      have : (d = c) = False := by
        apply propext
        simp
        omega
      simp [this]

/-! ### Offset-to-cell-index recovery -/

set_option maxRecDepth 100000 in
/-- What the offset-to-cell-index recovery actually computes on an exact
cell offset: for every legal resolved size `4*u` (u = 1..16, covering both
the power-of-two shift path and the magic-number path) and every cell
index `c < 992`, recovery of `c * cellSize` yields `c % 256` — the true
index truncated to the `uint8_t cellIndex` of mempool::release. -/
theorem recovery_mod : ∀ u, u < 17 → ∀ c, c < 992 → 1 ≤ u →
    offsetToCellIndex (4 * u) (c * (4 * u)) = c % 256 := by decide

/-! ### Selection-sort correctness of the begin loop -/

theorem gns_go_spec (current : Nat) : ∀ (l : List segment) (i ret find : Nat),
    ((_gns_go current l i (ret, find) = (ret, find)) ∨
     (∃ j s, l.get? j = some s ∧ _gns_go current l i (ret, find) = (i + j, s.size) ∧
        current < s.size ∧ s.size < find)) ∧
    (∀ s ∈ l, current < s.size → (_gns_go current l i (ret, find)).2 ≤ s.size) ∧
    (_gns_go current l i (ret, find)).2 ≤ find := by
  intro l
  induction l with
  | nil =>
    intro i ret find
    refine ⟨Or.inl rfl, ?_, le_refl _⟩
    intro s hs
    simp at hs
  | cons s rest ih =>
    intro i ret find
    by_cases hcond : current < s.size ∧ s.size < find
    · have hstep : _gns_go current (s :: rest) i (ret, find) =
          _gns_go current rest (i + 1) (i, s.size) := by
        simp [_gns_go, hcond]
      obtain ⟨ih1, ih2, ih3⟩ := ih (i + 1) i s.size
      rw [hstep]
      refine ⟨?_, ?_, le_trans ih3 (le_of_lt hcond.2)⟩
      · rcases ih1 with h | ⟨j, t, hj, hr, ht1, ht2⟩
        · right
          exact ⟨0, s, rfl, by rw [h]; simp, hcond.1, hcond.2⟩
        · right
          exact ⟨j + 1, t, by simpa using hj, by rw [hr]; ring_nf, ht1, lt_trans ht2 hcond.2⟩
      · intro t ht hlt
        rcases List.mem_cons.mp ht with rfl | hmem
        · exact ih3
        · exact ih2 t hmem hlt
    · have hstep : _gns_go current (s :: rest) i (ret, find) =
          _gns_go current rest (i + 1) (ret, find) := by
        simp [_gns_go, hcond]
      obtain ⟨ih1, ih2, ih3⟩ := ih (i + 1) ret find
      rw [hstep]
      refine ⟨?_, ?_, ih3⟩
      · rcases ih1 with h | ⟨j, t, hj, hr, ht1, ht2⟩
        · exact Or.inl h
        · right
          exact ⟨j + 1, t, by simpa using hj, by rw [hr]; ring_nf, ht1, ht2⟩
      · intro t ht hlt
        rcases List.mem_cons.mp ht with rfl | hmem
        · have : find ≤ t.size := by
            rcases not_and_or.mp hcond with h | h
            · exact absurd hlt h
            · omega
          exact le_trans ih3 this
        · exact ih2 t hmem hlt

/-- mempool::_get_next_segment returns (the index of) a descriptor of
minimal size among those strictly larger than `current`, whenever one
exists and all sizes fit in `uint8_t`. -/
theorem gns_spec (arr : List segment) (current : Nat)
    (hall : ∀ s ∈ arr, s.size < 256)
    (hex : ∃ s ∈ arr, current < s.size) :
    ∃ t, arr.get? (_get_next_segment arr current) = some t ∧ current < t.size ∧
      ∀ s ∈ arr, current < s.size → t.size ≤ s.size := by
  obtain ⟨s0, hs0mem, hs0lt⟩ := hex
  obtain ⟨h1, h2, _⟩ := gns_go_spec current arr 0 0 65535
  have hr2lt : (_gns_go current arr 0 (0, 65535)).2 < 65535 := by
    have := h2 s0 hs0mem hs0lt
    have := hall s0 hs0mem
    omega
  rcases h1 with h | ⟨j, t, hj, hr, ht1, _⟩
  · rw [h] at hr2lt
    simp at hr2lt
  · refine ⟨t, ?_, ht1, ?_⟩
    · unfold _get_next_segment
      rw [hr]
      simpa using hj
    · intro s hs hlt
      have := h2 s hs hlt
      rw [hr] at this
      exact this

/-- Counting step for the selection sort: with pairwise-distinct sizes,
placing the minimal descriptor above `current` decreases the number of
remaining candidates by exactly one. -/
theorem filter_step_count (segs : List segment) (t : segment) (current : Nat)
    (hnodup : (segs.map (fun s => s.size)).Nodup)
    (htmem : t ∈ segs) (htlt : current < t.size)
    (hmin : ∀ s ∈ segs, current < s.size → t.size ≤ s.size) :
    (segs.filter (fun s => decide (t.size < s.size))).length + 1 =
      (segs.filter (fun s => decide (current < s.size))).length := by
  set F := segs.filter (fun s => decide (current < s.size)) with hF
  have hcongr : segs.filter (fun s => decide (t.size < s.size)) =
      F.filter (fun s => !decide (s.size = t.size)) := by
    rw [hF, List.filter_filter]
    apply List.filter_congr
    intro s hs
    by_cases h1 : t.size < s.size
    · have h2 : current < s.size := lt_trans htlt h1
      simp [h1, h2]
      omega
    · by_cases h2 : current < s.size
      · have := hmin s hs h2
        have : s.size = t.size := by omega
        simp [h1, h2, this]
      · simp [h1, h2]
  have htF : t ∈ F := List.mem_filter.mpr ⟨htmem, by simpa using htlt⟩
  have hFnodup : (F.map (fun s => s.size)).Nodup :=
    List.Nodup.sublist (List.Sublist.map _ (List.filter_sublist segs)) hnodup
  have hsplit := List.length_eq_countP_add_countP (fun s => decide (s.size = t.size)) F
  have hcount1 : List.countP (fun s => decide (s.size = t.size)) F = 1 := by
    have hmm : t.size ∈ F.map (fun s => s.size) := List.mem_map_of_mem _ htF
    have := List.count_eq_one_of_mem hFnodup hmm
    rw [List.count_eq_countP, List.countP_map] at this
    have heq : ((fun x => x == t.size) ∘ fun s : segment => s.size) =
        (fun s : segment => decide (s.size = t.size)) := by
      funext s
      by_cases h : s.size = t.size <;> simp [h, Function.comp]
    rwa [heq] at this
  rw [hcongr]
  rw [← List.countP_eq_length_filter]
  have hnotP : List.countP (fun s => !decide (s.size = t.size)) F =
      List.countP (fun a : segment => decide ¬decide (a.size = t.size) = true) F := by
    congr 1
    funext s
    by_cases h : s.size = t.size <;> simp [h]
  omega

/-- Selection-sort correctness of the begin loop for pairwise-distinct,
in-range descriptor sizes: the loop succeeds and appends a strictly
increasing run of resolved sizes, all drawn from the input descriptors. -/
theorem beginLoop_ok (segs : List segment)
    (hnodup : (segs.map (fun s => s.size)).Nodup)
    (hpos : ∀ s ∈ segs, 1 ≤ s.size) (hle : ∀ s ∈ segs, s.size ≤ 16) :
    ∀ fuel i current sizes cnts,
      fuel + i = segs.length →
      (segs.filter (fun s => decide (current < s.size))).length = fuel →
      ∃ sizes2 cnts2,
        beginLoop segs fuel i current sizes cnts = some (sizes ++ sizes2, cnts ++ cnts2) ∧
        sizes2.length = fuel ∧ cnts2.length = fuel ∧
        List.Chain (· < ·) (current * 4) sizes2 ∧
        ∀ p ∈ sizes2.zip cnts2, ∃ s, s ∈ segs ∧ p.1 = s.size * 4 ∧ p.2 = s.count := by
  intro fuel
  induction fuel with
  | zero =>
    intro i current sizes cnts hlen hcnt
    exact ⟨[], [], by simp [beginLoop], rfl, rfl, List.Chain.nil, by simp⟩
  | succ f ih =>
    intro i current sizes cnts hlen hcnt
    have hi : i < segs.length := by omega
    obtain ⟨si, hsi⟩ : ∃ si, segs.get? i = some si := ⟨_, List.get?_eq_get hi⟩
    have hsi0 : ¬ si.size = 0 := by
      have := hpos si (List.get?_mem hsi)
      omega
    have hexmem : ∃ s ∈ segs, current < s.size := by
      have hpos2 : 0 < (segs.filter (fun s => decide (current < s.size))).length := by omega
      obtain ⟨s, hs⟩ := List.exists_mem_of_length_pos hpos2
      obtain ⟨hmem, hp⟩ := List.mem_filter.mp hs
      exact ⟨s, hmem, by simpa using hp⟩
    obtain ⟨t, hgt, htlt, hmin⟩ :=
      gns_spec segs current (fun s hs => by have := hle s hs; omega) hexmem
    have htmem : t ∈ segs := List.get?_mem hgt
    have htle : t.size ≤ 16 := hle t htmem
    have hsz : ¬ (64 < t.size * SEGMENT_STEP) := by
      unfold SEGMENT_STEP
      omega
    have hstep : beginLoop segs (f+1) i current sizes cnts =
        beginLoop segs f (i+1) t.size (sizes ++ [t.size * SEGMENT_STEP]) (cnts ++ [t.count]) := by
      simp only [beginLoop, hsi, hgt, if_neg hsi0, if_neg hsz]
    have hcnt2 : (segs.filter (fun s => decide (t.size < s.size))).length = f := by
      have := filter_step_count segs t current hnodup htmem htlt hmin
      omega
    obtain ⟨sizes3, cnts3, hres, hl1, hl2, hchain, hfrom⟩ :=
      ih (i+1) t.size (sizes ++ [t.size * SEGMENT_STEP]) (cnts ++ [t.count]) (by omega) hcnt2
    refine ⟨t.size * SEGMENT_STEP :: sizes3, t.count :: cnts3, ?_, by simp [hl1],
        by simp [hl2], ?_, ?_⟩
    · rw [hstep, hres]
      simp
    · apply List.Chain.cons
      · show current * 4 < t.size * SEGMENT_STEP
        unfold SEGMENT_STEP
        omega
      · simpa [SEGMENT_STEP] using hchain
    · intro p hp
      rw [List.zip_cons_cons] at hp
      rcases List.mem_cons.mp hp with rfl | hmem
      · exact ⟨t, htmem, rfl, rfl⟩
      · exact hfrom p hmem


theorem StWF_sizes_mono (st : MState) (hwf : StWF st) (i j : Nat)
    (hij : i < j) (hj : j < st.segment_count) :
    st.segment_sizes.getD i 0 < st.segment_sizes.getD j 0 := by
  obtain ⟨-, -, -, hlen, -, -, -, -, -, -, hpw, -⟩ := hwf
  have hjl : j < st.segment_sizes.length := by omega
  have hil : i < st.segment_sizes.length := by omega
  rw [getD_eq_getElem _ _ _ hil, getD_eq_getElem _ _ _ hjl]
  exact List.pairwise_iff_getElem.mp hpw i j hil hjl hij

theorem StWF_size_le_max (st : MState) (hwf : StWF st) (i : Nat)
    (hi : i < st.segment_count) :
    st.segment_sizes.getD i 0 ≤ st.max_segment_size := by
  have hmax := hwf.2.2.2.2.2.2.2.2.2.2.2.2.1
  rw [hmax]
  by_cases h : i = st.segment_count - 1
  · rw [h]
  · have h1 := hwf.2.1
    exact le_of_lt (StWF_sizes_mono st hwf i _ (by omega) (by omega))

/-- A successful `begin` on an uninitialized object with valid descriptors
(pairwise-distinct sizes in `[1,16]` units, cell counts in `[1,992]`,
`1 ≤ count ≤ 64`) yields a well-formed state whose cells are all free. -/
theorem beginM_ok (st0 : MState) (segs : List segment)
    (hinit : st0.initialized = false)
    (hnodup : (segs.map (fun s => s.size)).Nodup)
    (hpos : ∀ s ∈ segs, 1 ≤ s.size) (hle : ∀ s ∈ segs, s.size ≤ 16)
    (hcnt : ∀ s ∈ segs, 1 ≤ s.count ∧ s.count ≤ 992)
    (hc1 : 1 ≤ segs.length) (hc64 : segs.length ≤ 64) :
    ∃ st, beginM st0 segs = .ok st ∧ StWF st ∧
      st.segment_count = segs.length ∧
      st.segment_sizes.length = segs.length ∧
      (∀ p ∈ st.segment_sizes.zip st.cell_count,
        ∃ s, s ∈ segs ∧ p.1 = s.size * 4 ∧ p.2 = s.count) ∧
      (∀ sg c, sg < st.segment_count → c < st.cell_count.getD sg 0 →
        stUsed st sg c = false) := by
  have hfilter : (segs.filter (fun s => decide (0 < s.size))).length = segs.length := by
    rw [List.filter_eq_self.mpr (fun s hs => by simpa using hpos s hs)]
  obtain ⟨sizes2, cnts2, hloopeq, hlen1, hlen2, hchain, hfrom⟩ :=
    beginLoop_ok segs hnodup hpos hle segs.length 0 0 [] [] (by omega) hfilter
  rw [List.nil_append, List.nil_append] at hloopeq
  have hmx : sizes2.get? (segs.length - 1) = some (sizes2.getD (segs.length - 1) 0) :=
    get?_eq_some_getD _ _ _ (by omega)
  have h64 : ¬ (64 < segs.length) := by omega
  have hpair : ∀ i, i < segs.length →
      ∃ s, s ∈ segs ∧ sizes2.getD i 0 = s.size * 4 ∧ cnts2.getD i 0 = s.count := by
    intro i hi
    have hzl : i < (sizes2.zip cnts2).length := by
      rw [List.length_zip]
      omega
    have hz := List.getElem_zip (h := hzl)
    have hmem : (sizes2.getD i 0, cnts2.getD i 0) ∈ sizes2.zip cnts2 := by
      rw [getD_eq_getElem _ _ _ (by omega), getD_eq_getElem _ _ _ (by omega), ← hz]
      exact List.getElem_mem hzl
    exact hfrom _ hmem
  have hpw : List.Pairwise (· < ·) sizes2 := by
    have h0 : List.Chain (· < ·) 0 sizes2 := by simpa using hchain
    exact (List.pairwise_cons.mp (List.chain_iff_pairwise.mp h0)).2
  refine ⟨{ st0 with
      initialized := true,
      segment_count := segs.length,
      segment_sizes := sizes2,
      cell_count := cnts2,
      magic_number := sizes2.map (fun s => (magicShiftFor s).1),
      segment_shift := sizes2.map (fun s => (magicShiftFor s).2),
      max_segment_size := sizes2.getD (segs.length - 1) 0,
      segment_lookup := buildLookup sizes2 (sizes2.getD (segs.length - 1) 0 / SEGMENT_STEP),
      segment_lookup_count := sizes2.getD (segs.length - 1) 0 / SEGMENT_STEP,
      segment_base := bases sizes2 cnts2,
      pools := cnts2.map initPool,
      buffer_size := (sizes2.zip cnts2).foldl (fun a p => a + p.1 * p.2) 0,
      pool_size := st0.pool_size + cnts2.foldl (fun a c => a + numGroups c + 1) 0 },
    ?_, ?_, rfl, hlen1, ?_, ?_⟩
  · unfold beginM
    simp only [hinit, Bool.false_eq_true, if_false, if_neg h64, hloopeq, hmx]
  · have hpool_getD : ∀ i, i < segs.length →
        (cnts2.map initPool).getD i ⟨0, []⟩ = initPool (cnts2.getD i 0) := by
      intro i hi
      rw [List.getD_eq_getElem?_getD, List.getElem?_map,
          List.getElem?_eq_getElem (by rw [hlen2]; omega),
          getD_eq_getElem _ _ _ (by omega)]
      rfl
    refine ⟨rfl, by simpa, by simpa, hlen1, hlen2, rfl, rfl, rfl,
        by simp [List.length_map]; omega, ?_, hpw, ?_, rfl, rfl, rfl, ?_⟩
    · dsimp only
      intro i hi
      obtain ⟨s, hsmem, hs1, -⟩ := hpair i hi
      have h1 := hpos s hsmem
      have h2 := hle s hsmem
      simp only [hs1]
      omega
    · dsimp only
      intro i hi
      obtain ⟨s, hsmem, -, hs2⟩ := hpair i hi
      have := hcnt s hsmem
      simp only [hs2]
      omega
    · dsimp only
      intro i hi
      rw [hpool_getD i hi]
      obtain ⟨s, hsmem, -, hs2⟩ := hpair i hi
      have hb := hcnt s hsmem
      exact (initPool_inv _ (by omega) (by omega)).1
  · exact hfrom
  · intro sg c hsg hc
    unfold stUsed
    have hpool_getD :
        (cnts2.map initPool).getD sg ⟨0, []⟩ = initPool (cnts2.getD sg 0) := by
      rw [List.getD_eq_getElem?_getD, List.getElem?_map,
          List.getElem?_eq_getElem (by rw [hlen2]; exact hsg),
          getD_eq_getElem _ _ _ (by rw [hlen2]; exact hsg)]
      rfl
    rw [hpool_getD]
    obtain ⟨s, hsmem, -, hs2⟩ := hpair sg hsg
    have hb := hcnt s hsmem
    exact (initPool_inv _ (by rw [hs2]; omega) (by rw [hs2]; omega)).2 c hc

/-! ### Segment base-offset arithmetic -/

theorem basesGo_length : ∀ (l : List (Nat × Nat)) (acc : Nat),
    (basesGo l acc).length = l.length := by
  intro l
  induction l with
  | nil => intro acc; rfl
  | cons p rest ih =>
    intro acc
    show (acc :: basesGo rest (acc + p.1 * p.2)).length = rest.length + 1
    simp [ih]

theorem basesGo_head (p : Nat × Nat) (l : List (Nat × Nat)) (acc : Nat) :
    (basesGo (p :: l) acc).getD 0 0 = acc := rfl

theorem basesGo_adjacent : ∀ (l : List (Nat × Nat)) (acc i : Nat), i + 1 < l.length →
    (basesGo l acc).getD (i+1) 0 =
      (basesGo l acc).getD i 0 + (l.getD i (0, 0)).1 * (l.getD i (0, 0)).2 := by
  intro l
  induction l with
  | nil => intro acc i h; simp at h
  | cons p rest ih =>
    intro acc i h
    match i with
    | 0 =>
      show (basesGo rest (acc + p.1 * p.2)).getD 0 0 = acc + p.1 * p.2
      match rest, h with
      | q :: rest2, _ => exact basesGo_head q rest2 _
    | i + 1 =>
      show (basesGo rest (acc + p.1 * p.2)).getD (i+1) 0 = _
      rw [ih (acc + p.1 * p.2) i (by simpa using h)]
      rfl

theorem foldl_prod_mono : ∀ (l : List (Nat × Nat)) (acc : Nat),
    acc ≤ l.foldl (fun a p => a + p.1 * p.2) acc := by
  intro l
  induction l with
  | nil => intro acc; exact le_refl _
  | cons p rest ih =>
    intro acc
    calc acc ≤ acc + p.1 * p.2 := by omega
    _ ≤ _ := ih _

theorem basesGo_bound : ∀ (l : List (Nat × Nat)) (acc i : Nat), i < l.length →
    (basesGo l acc).getD i 0 + (l.getD i (0, 0)).1 * (l.getD i (0, 0)).2 ≤
      l.foldl (fun a p => a + p.1 * p.2) acc := by
  intro l
  induction l with
  | nil => intro acc i h; simp at h
  | cons p rest ih =>
    intro acc i h
    match i with
    | 0 =>
      show acc + p.1 * p.2 ≤ List.foldl _ (acc + p.1 * p.2) rest
      exact foldl_prod_mono rest _
    | i + 1 =>
      show (basesGo rest (acc + p.1 * p.2)).getD i 0 + _ ≤ _
      exact ih (acc + p.1 * p.2) i (by simpa using h)

theorem zip_getD (l1 l2 : List Nat) (i : Nat) (h1 : i < l1.length) (h2 : i < l2.length) :
    (l1.zip l2).getD i (0, 0) = (l1.getD i 0, l2.getD i 0) := by
  have hzl : i < (l1.zip l2).length := by rw [List.length_zip]; omega
  rw [getD_eq_getElem _ _ _ hzl, getD_eq_getElem _ _ _ h1, getD_eq_getElem _ _ _ h2]
  exact List.getElem_zip (h := hzl)

theorem StWF_base_length (st : MState) (hwf : StWF st) :
    st.segment_base.length = st.segment_count := by
  obtain ⟨-, -, -, hls, hlc, -, -, hbase, -⟩ := hwf
  rw [hbase]
  unfold bases
  rw [basesGo_length, List.length_zip]
  omega

theorem StWF_base_zero (st : MState) (hwf : StWF st) :
    st.segment_base.getD 0 0 = 0 := by
  have hc1 := hwf.2.1
  have hls := hwf.2.2.2.1
  have hlc := hwf.2.2.2.2.1
  have hbase := hwf.2.2.2.2.2.2.2.1
  rw [hbase]
  unfold bases
  match hss : st.segment_sizes, hcc : st.cell_count with
  | [], _ => rw [hss] at hls; simp at hls; omega
  | _ :: _, [] => rw [hcc] at hlc; simp at hlc; omega
  | a :: as, b :: bs => rw [List.zip_cons_cons]; exact basesGo_head _ _ _

theorem StWF_base_adjacent (st : MState) (hwf : StWF st) (i : Nat)
    (h : i + 1 < st.segment_count) :
    st.segment_base.getD (i+1) 0 =
      st.segment_base.getD i 0 + st.segment_sizes.getD i 0 * st.cell_count.getD i 0 := by
  have hls := hwf.2.2.2.1
  have hlc := hwf.2.2.2.2.1
  have hbase := hwf.2.2.2.2.2.2.2.1
  have hzl : i + 1 < (st.segment_sizes.zip st.cell_count).length := by
    rw [List.length_zip]; omega
  rw [hbase]
  unfold bases
  rw [basesGo_adjacent _ 0 i hzl, zip_getD _ _ i (by omega) (by omega)]

theorem StWF_base_mono (st : MState) (hwf : StWF st) :
    ∀ j i, i < j → j < st.segment_count →
      st.segment_base.getD i 0 < st.segment_base.getD j 0 := by
  intro j
  induction j with
  | zero => intro i hi; omega
  | succ k ih =>
    intro i hi hj
    have hs := (hwf.2.2.2.2.2.2.2.2.2.1 k (by omega)).2.1
    have hc := (hwf.2.2.2.2.2.2.2.2.2.2.2.1 k (by omega)).1
    have hadj := StWF_base_adjacent st hwf k hj
    by_cases hik : i = k
    · subst hik
      rw [hadj]
      have : 1 ≤ st.segment_sizes.getD i 0 * st.cell_count.getD i 0 :=
        Nat.one_le_iff_ne_zero.mpr (by positivity)
      omega
    · have := ih i (by omega) (by omega)
      rw [hadj]
      omega

theorem StWF_base_bound (st : MState) (hwf : StWF st) (i : Nat)
    (hi : i < st.segment_count) :
    st.segment_base.getD i 0 +
        st.segment_sizes.getD i 0 * st.cell_count.getD i 0 ≤ st.buffer_size := by
  have hls := hwf.2.2.2.1
  have hlc := hwf.2.2.2.2.1
  have hbase := hwf.2.2.2.2.2.2.2.1
  have hbuf := hwf.2.2.2.2.2.2.2.2.2.2.2.2.2.2.1
  have hzl : i < (st.segment_sizes.zip st.cell_count).length := by
    rw [List.length_zip]; omega
  rw [hbase, hbuf]
  unfold bases
  have := basesGo_bound (st.segment_sizes.zip st.cell_count) 0 i hzl
  rwa [zip_getD _ _ i (by omega) (by omega)] at this

/-! ### Binary search of mempool::release -/

theorem bsearchGo_correct (base : List Nat) (off count sgT : Nat)
    (hlen : base.length = count) (hcount : count ≤ 64)
    (hmono : ∀ j i, i < j → j < count → base.getD i 0 < base.getD j 0)
    (hbase0 : base.getD 0 0 = 0)
    (hsgT : sgT < count) (hsgle : base.getD sgT 0 ≤ off)
    (hsggt : ∀ j, sgT < j → j < count → off < base.getD j 0) :
    ∀ fuel l r sgAcc,
      r < count → l ≤ r + 1 → r + 1 - l < fuel →
      ((l = 0 ∧ sgAcc = none) ∨
        (1 ≤ l ∧ sgAcc = some (l - 1) ∧ base.getD (l-1) 0 ≤ off)) →
      (∀ j, r < j → j < count → off < base.getD j 0) →
      bsearchGo base off fuel l r sgAcc = .found sgT := by
  intro fuel
  induction fuel with
  | zero => intro l r sgAcc hr hlr hfuel; omega
  | succ f ih =>
    intro l r sgAcc hr hlr hfuel hacc hright
    by_cases hexit : r < l
    · have hlr1 : l = r + 1 := by omega
      rcases hacc with ⟨hl0, -⟩ | ⟨hl1, hsome, hle2⟩
      · omega
      · have heq : l - 1 = sgT := by
          by_contra hne
          by_cases hlt : l - 1 < sgT
          · have := hright sgT (by omega) hsgT
            omega
          · have := hsggt (l-1) (by omega) (by omega)
            omega
        show bsearchGo base off (f+1) l r sgAcc = .found sgT
        unfold bsearchGo
        rw [if_pos hexit, hsome, heq]
    · have hlrle : l ≤ r := by omega
      have hm : (l + r) / 2 < count := by omega
      have hget : base.get? ((l + r) / 2) = some (base.getD ((l + r) / 2) 0) :=
        get?_eq_some_getD _ _ _ (by omega)
      show bsearchGo base off (f+1) l r sgAcc = .found sgT
      unfold bsearchGo
      rw [if_neg hexit]
      dsimp only
      simp only [hget]
      by_cases hcmp : off < base.getD ((l + r) / 2) 0
      · rw [if_pos hcmp]
        have hm1 : 1 ≤ (l + r) / 2 := by
          by_contra hm0
          have : (l + r) / 2 = 0 := by omega
          rw [this, hbase0] at hcmp
          omega
        have hwrap : ((l + r) / 2 + 255) % 256 = (l + r) / 2 - 1 := by omega
        rw [hwrap]
        apply ih l ((l + r) / 2 - 1) sgAcc (by omega) (by omega) (by omega) hacc
        intro j hj hjc
        by_cases hjm : j = (l + r) / 2
        · rwa [hjm]
        · have := hmono j ((l + r) / 2) (by omega) hjc
          omega
      · rw [if_neg hcmp]
        apply ih ((l + r) / 2 + 1) r (some ((l + r) / 2)) hr (by omega) (by omega) ?_ hright
        right
        refine ⟨by omega, by simp, by simpa using hcmp⟩

/-! ### Release correctness -/

theorem cell_off_lt (c cnt s : Nat) (hc : c < cnt) (hs : 1 ≤ s) : c * s < s * cnt := by
  have h1 : (c + 1) * s ≤ cnt * s := Nat.mul_le_mul_right s hc
  have h2 : (c + 1) * s = c * s + s := by ring
  have h3 : cnt * s = s * cnt := Nat.mul_comm _ _
  omega

/-- Replacing one pool with another satisfying the bitmap invariant
preserves state well-formedness (only `_pool_buffer` words change). -/
theorem StWF_set_pool (st : MState) (hwf : StWF st) (sg : Nat) (p2 : Pool)
    (hsg : sg < st.segment_count)
    (hinv2 : PoolInv (st.cell_count.getD sg 0) p2) :
    StWF { st with pools := st.pools.set sg p2 } := by
  obtain ⟨h1, h2, h3, h4, h5, h6, h7, h8, h9, h10, h11, h12, h13, h14, h15, h16⟩ := hwf
  refine ⟨h1, h2, h3, h4, h5, h6, h7, h8, ?_, h10, h11, h12, h13, h14, h15, ?_⟩
  · show (st.pools.set sg p2).length = st.segment_count
    rw [List.length_set]
    exact h9
  · intro i hi
    show PoolInv _ ((st.pools.set sg p2).getD i ⟨0, []⟩)
    rw [getD_set_lt _ _ _ _ _ (by omega)]
    by_cases hisg : i = sg
    · subst hisg
      rw [if_pos rfl]
      exact hinv2
    · rw [if_neg hisg]
      exact h16 i hi

theorem map_getD_magic (st : MState) (hwf : StWF st) (sg : Nat)
    (hsg : sg < st.segment_count) :
    st.magic_number.getD sg 0 = (magicShiftFor (st.segment_sizes.getD sg 0)).1 ∧
      st.segment_shift.getD sg 0 = (magicShiftFor (st.segment_sizes.getD sg 0)).2 := by
  have hls := hwf.2.2.2.1
  have hmg := hwf.2.2.2.2.2.1
  have hsh := hwf.2.2.2.2.2.2.1
  have hlt : sg < st.segment_sizes.length := by omega
  constructor
  · rw [hmg, List.getD_eq_getElem?_getD, List.getElem?_map,
        List.getElem?_eq_getElem hlt, getD_eq_getElem _ _ _ hlt]
    rfl
  · rw [hsh, List.getD_eq_getElem?_getD, List.getElem?_map,
        List.getElem?_eq_getElem hlt, getD_eq_getElem _ _ _ hlt]
    rfl

/-- mempool::release applied to the address of cell `c` of segment `sg` of
a well-formed state: the binary search identifies `sg`, the divisor
recovery computes `c % 256` (the `uint8_t` truncation of the true index),
and exactly that cell's bit (together with its group bit) is cleared.  The
bitmap invariant is preserved. -/
theorem releaseM_spec (st : MState) (hwf : StWF st) (sg c : Nat)
    (hsg : sg < st.segment_count) (hc : c < st.cell_count.getD sg 0) :
    ∃ p2, releaseM st (offsetOf st sg c) = some { st with pools := st.pools.set sg p2 } ∧
      StWF { st with pools := st.pools.set sg p2 } ∧
      ∀ sg2 d, stUsed { st with pools := st.pools.set sg p2 } sg2 d =
        (stUsed st sg2 d && !(decide (sg2 = sg) && decide (d = c % 256))) := by
  have hinit := hwf.1
  have hc1 := hwf.2.1
  have hc64 := hwf.2.2.1
  have hls := hwf.2.2.2.1
  have hlc := hwf.2.2.2.2.1
  have hlp := hwf.2.2.2.2.2.2.2.2.1
  have hszb := hwf.2.2.2.2.2.2.2.2.2.1 sg hsg
  have hcntb := hwf.2.2.2.2.2.2.2.2.2.2.2.1 sg hsg
  have hpinv := hwf.2.2.2.2.2.2.2.2.2.2.2.2.2.2.2 sg hsg
  set s := st.segment_sizes.getD sg 0 with hsdef
  set cnt := st.cell_count.getD sg 0 with hcntdef
  set b := st.segment_base.getD sg 0 with hbdef
  set p := st.pools.getD sg ⟨0, []⟩ with hpdef
  have hoff : offsetOf st sg c = b + c * s := rfl
  have hofflt : b + c * s < st.buffer_size := by
    have hbd := StWF_base_bound st hwf sg hsg
    rw [← hsdef, ← hcntdef, ← hbdef] at hbd
    have : c * s < s * cnt := cell_off_lt c cnt s hc (by omega)
    omega
  have hng1 : 1 ≤ numGroups cnt := by unfold numGroups; omega
  have hng31 : numGroups cnt ≤ 31 := by unfold numGroups; omega
  -- the binary search returns sg
  have hsearch : bsearchGo st.segment_base (b + c * s) 512 0
      ((st.segment_count + 255) % 256) none = .found sg := by
    apply bsearchGo_correct st.segment_base (b + c * s) st.segment_count sg
        (StWF_base_length st hwf) hc64 (StWF_base_mono st hwf) (StWF_base_zero st hwf)
        hsg (by omega) ?_ 512 0 ((st.segment_count + 255) % 256) none
        (by omega) (by omega) (by omega) (Or.inl ⟨rfl, rfl⟩)
    · intro j hj hjc
      have hadj : st.segment_base.getD (sg+1) 0 = b + s * cnt :=
        StWF_base_adjacent st hwf sg (by omega)
      have hstep : b + c * s < st.segment_base.getD (sg+1) 0 := by
        rw [hadj]
        have : c * s < s * cnt := cell_off_lt c cnt s hc (by omega)
        omega
      by_cases hj1 : j = sg + 1
      · rw [hj1]; exact hstep
      · have := StWF_base_mono st hwf j (sg+1) (by omega) hjc
        omega
    · intro j hj hjc
      have hadj : st.segment_base.getD (sg+1) 0 = b + s * cnt :=
        StWF_base_adjacent st hwf sg (by omega)
      have hstep : b + c * s < st.segment_base.getD (sg+1) 0 := by
        rw [hadj]
        have : c * s < s * cnt := cell_off_lt c cnt s hc (by omega)
        omega
      by_cases hj1 : j = sg + 1
      · rw [hj1]; exact hstep
      · have := StWF_base_mono st hwf j (sg+1) (by omega) hjc
        omega
  -- stored divisor parameters
  obtain ⟨hmg, hsh⟩ := map_getD_magic st hwf sg hsg
  have hlmg : st.magic_number.length = st.segment_count := by
    rw [hwf.2.2.2.2.2.1, List.length_map]
    omega
  have hlsh : st.segment_shift.length = st.segment_count := by
    rw [hwf.2.2.2.2.2.2.1, List.length_map]
    omega
  have hgb : st.segment_base.get? sg = some b :=
    get?_eq_some_getD _ _ _ (by rw [StWF_base_length st hwf]; omega)
  have hgs : st.segment_sizes.get? sg = some s := get?_eq_some_getD _ _ _ (by omega)
  have hgmg : st.magic_number.get? sg = some (st.magic_number.getD sg 0) :=
    get?_eq_some_getD _ _ _ (by omega)
  have hgsh : st.segment_shift.get? sg = some (st.segment_shift.getD sg 0) :=
    get?_eq_some_getD _ _ _ (by omega)
  have hgp : st.pools.get? sg = some p := get?_eq_some_getD _ _ _ (by omega)
  have hcs : c * s < 65536 := by
    have : c * s ≤ 991 * 64 := Nat.mul_le_mul (by omega) (by omega)
    omega
  -- the recovered cell index
  have hrec : offsetToCellIndex s (c * s) = c % 256 := by
    have hs4 : s = 4 * (s / 4) := by omega
    rw [hs4]
    exact recovery_mod (s / 4) (by omega) c (by omega) (by omega)
  set c2 := c % 256 with hc2def
  have hc2lt : c2 < cnt := by omega
  have hc2ng : c2 / 32 < numGroups cnt := by unfold numGroups; omega
  obtain ⟨hplen, hgmlt2, hwlt, hcoh, hgpad, hcpad⟩ := hpinv
  have hgcm : p.cellMasks.get? (c2 / 32) = some (p.cellMasks.getD (c2 / 32) 0) :=
    get?_eq_some_getD _ _ _ (by omega)
  set cm := p.cellMasks.getD (c2 / 32) 0 with hcmdef
  set p2 : Pool :=
    ⟨bitClear32 p.groupMask (c2 / 32),
      p.cellMasks.set (c2 / 32) (bitClear32 cm (c2 % 32))⟩ with hp2def
  have hcell : (if s &&& (s - 1) ≠ 0 then
        (((c * s) >>> 2) * st.magic_number.getD sg 0) >>> 16 % 256
      else ((c * s) >>> st.segment_shift.getD sg 0) % 256) = c2 := by
    have h1 := hrec
    unfold offsetToCellIndex at h1
    rw [hmg, hsh]
    simp only [Nat.mod_eq_of_lt hcs] at h1 ⊢
    exact h1
  have hinv2 : PoolInv cnt p2 := by
    refine ⟨?_, ?_, ?_, ?_, ?_, ?_⟩
    · rw [hp2def]
      show (p.cellMasks.set _ _).length = _
      rw [List.length_set]
      exact hplen
    · exact lt_of_le_of_lt (bitClear32_le _ _) hgmlt2
    · intro g hg
      show (p.cellMasks.set _ _).getD g 0 < 2 ^ 32
      rw [getD_set_lt _ _ _ _ _ (by omega)]
      split
      · exact lt_of_le_of_lt (bitClear32_le _ _) (hwlt _ hc2ng)
      · exact hwlt g hg
    · intro g hg
      show (bitClear32 p.groupMask (c2 / 32)).testBit g = true ↔
        (p.cellMasks.set _ _).getD g 0 = U32MAX
      rw [bitClear32_testBit _ _ _ (by omega), getD_set_lt _ _ _ _ _ (by omega)]
      by_cases hgpi : g = c2 / 32
      · subst hgpi
        rw [if_pos rfl]
        constructor
        · intro h
          simp at h
        · intro h
          exfalso
          have := congrArg (fun x => x.testBit (c2 % 32)) h
          simp only [testBit_U32MAX] at this
          rw [bitClear32_testBit _ _ _ (by omega)] at this
          simp at this
          omega
      · rw [if_neg hgpi]
        have hg32 : g < 32 := by omega
        simp [hg32, hgpi]
        simpa [List.getD_eq_getElem?_getD] using hcoh g hg
    · intro g h32 hg
      rw [bitClear32_testBit _ _ _ (by omega)]
      have : ¬ (g = c2 / 32) := by omega
      simp [h32, this]
      exact hgpad g h32 hg
    · intro d hd hdcnt
      have hused := hcpad d hd hdcnt
      unfold poolUsed at hused ⊢
      show ((p.cellMasks.set _ _).getD (d / 32) 0).testBit (d % 32) = true
      rw [getD_set_lt _ _ _ _ _ (by omega)]
      by_cases hdpi : d / 32 = c2 / 32
      · rw [if_pos hdpi, bitClear32_testBit _ _ _ (by omega)]
        rw [hdpi, ← hcmdef] at hused
        have hne : ¬ (d % 32 = c2 % 32) := by omega
        simp [hused, hne]
        omega
      · rw [if_neg hdpi]
        exact hused
  refine ⟨p2, ?_, StWF_set_pool st hwf sg p2 hsg hinv2, ?_⟩
  · rw [hoff]
    unfold releaseM
    rw [if_neg (by rw [hinit]; simp), if_neg (by omega), hsearch]
    simp only [hgb, hgs, hgmg, hgsh, hgp]
    rw [Nat.add_sub_cancel_left, Nat.mod_eq_of_lt hcs]
    simp only [← hsdef, hcell, shr5_eq, and_31_eq, hgcm]
  · intro sg2 d
    unfold stUsed
    show poolUsed ((st.pools.set sg p2).getD sg2 ⟨0, []⟩) d = _
    rw [getD_set_lt _ _ _ _ _ (by omega)]
    by_cases hsg2 : sg2 = sg
    · subst hsg2
      rw [if_pos rfl, ← hpdef]
      unfold poolUsed
      show ((p.cellMasks.set _ _).getD (d / 32) 0).testBit (d % 32) = _
      rw [getD_set_lt _ _ _ _ _ (by omega)]
      by_cases hdpi : d / 32 = c2 / 32
      · rw [if_pos hdpi, bitClear32_testBit _ _ _ (by omega)]
        rw [hdpi, ← hcmdef]
        have hmod32 : d % 32 < 32 := by omega
        have heqd : (d % 32 = c2 % 32) = (d = c2) := by
          apply propext
          constructor <;> (intro h; omega)
        simp [hmod32, heqd]
      · rw [if_neg hdpi]
        have hne : ¬ (d = c2) := by omega
        simp [hne]
    · rw [if_neg hsg2]
      simp [hsg2]

/-! ### Lookup-table resolution -/

theorem lookup_go_eq : ∀ (l : List Nat) (e i sz : Nat), e < l.length →
    (∀ k, k < e → l.getD k 0 < sz) →
    sz ≤ l.getD e 0 →
    _lookup_go sz l i = Int.ofNat (i + e) := by
  intro l
  induction l with
  | nil =>
    intro e i sz he
    simp at he
  | cons x rest ih =>
    intro e i sz he hlt hge
    match e with
    | 0 =>
      have hx : sz ≤ x := hge
      show _lookup_go sz (x :: rest) i = Int.ofNat (i + 0)
      unfold _lookup_go
      rw [if_pos hx]
      simp
    | e + 1 =>
      have hx : x < sz := hlt 0 (by omega)
      show _lookup_go sz (x :: rest) i = _
      unfold _lookup_go
      rw [if_neg (by omega)]
      rw [ih e (i+1) sz (by simpa using he) (fun k hk => hlt (k+1) (by omega)) hge]
      congr 1
      omega

/-- The lookup-table read of mempool::alloc (mempool.cpp:233) resolves a
request of `1 ≤ size ≤ max` to the least segment index whose resolved size
is ≥ `size`. -/
theorem StWF_lookup_resolve (st : MState) (hwf : StWF st) (size e : Nat)
    (h1 : 1 ≤ size) (hmx : size ≤ st.max_segment_size)
    (he : e < st.segment_count)
    (hklt : ∀ k, k < e → st.segment_sizes.getD k 0 < size)
    (hele : size ≤ st.segment_sizes.getD e 0) :
    st.segment_lookup.get? (((size + SEGMENT_STEP - 1) >>> SEGMENT_LOG2) - 1) =
      some (Int.ofNat e) := by
  have hc1 := hwf.2.1
  have hls := hwf.2.2.2.1
  have hlook := hwf.2.2.2.2.2.2.2.2.2.2.2.2.2.1
  have hmaxb := hwf.2.2.2.2.2.2.2.2.2.1 (st.segment_count - 1) (by omega)
  have hmxeq := hwf.2.2.2.2.2.2.2.2.2.2.2.2.1
  have heb := hwf.2.2.2.2.2.2.2.2.2.1 e he
  have hshift : (size + SEGMENT_STEP - 1) >>> SEGMENT_LOG2 = (size + 3) / 4 := by
    show (size + 4 - 1) >>> 2 = (size + 3) / 4
    rw [Nat.shiftRight_eq_div_pow]
    norm_num
  have hidx : (size + 3) / 4 - 1 < st.max_segment_size / SEGMENT_STEP := by
    show _ < st.max_segment_size / 4
    omega
  rw [hlook, hshift]
  unfold buildLookup
  rw [List.get?_eq_getElem?, List.getElem?_map, List.getElem?_range hidx]
  show some (_lookup_segment st.segment_sizes (((size + 3) / 4 - 1 + 1) * SEGMENT_STEP)) = _
  have hsz4 : ((size + 3) / 4 - 1 + 1) * SEGMENT_STEP = 4 * ((size + 3) / 4) := by
    show _ * 4 = _
    omega
  rw [hsz4]
  unfold _lookup_segment
  have hklt4 : ∀ k, k < e → st.segment_sizes.getD k 0 < 4 * ((size + 3) / 4) := by
    intro k hk
    have := hklt k hk
    omega
  have hele4 : 4 * ((size + 3) / 4) ≤ st.segment_sizes.getD e 0 := by omega
  rw [lookup_go_eq st.segment_sizes e 0 (4 * ((size + 3) / 4)) (by omega) hklt4 hele4]
  simp

/-! ### Allocation: the resolution/escalation/scan path of mempool::alloc -/

theorem int_byte_of_small (e : Nat) (he : e < 256) : ((Int.ofNat e) % 256).toNat = e := by
  have h : Int.ofNat e = (e : Int) := rfl
  rw [h, Int.emod_eq_of_lt (by omega) (by omega)]
  simp

/-- One unfolding of mempool::alloc on a well-formed state, for a request
resolving to segment `e`: after the size check and the lookup-table read,
the call either escalates to the next larger segment's resolved size when
the group mask of pool `e` is entirely 1 (or returns null when `e` is the
last segment), or runs the free-cell scan in pool `e`. -/
theorem allocFuel_unfold (st : MState) (hwf : StWF st) (f size e : Nat)
    (h1 : 1 ≤ size) (hmx : size ≤ st.max_segment_size)
    (he : e < st.segment_count)
    (hklt : ∀ k, k < e → st.segment_sizes.getD k 0 < size)
    (hele : size ≤ st.segment_sizes.getD e 0) :
    allocFuel (f+1) st size =
      (if (st.pools.getD e ⟨0, []⟩).groupMask = U32MAX then
        (if e < st.segment_count - 1 then
          (match st.segment_sizes.get? (e + 1) with
          | none => AllocOut.ub
          | some s2 => allocFuel f st s2)
        else .fail st)
      else
        (match allocPoolCore (st.cell_count.getD e 0) (st.pools.getD e ⟨0, []⟩) with
        | .ub => .ub
        | .fail => .fail st
        | .ok cell p2 =>
          match st.segment_base.get? e, st.segment_sizes.get? e with
          | some b, some s => .ok (b + cell * s) { st with pools := st.pools.set e p2 }
          | _, _ => .ub)) := by
  have hc64 := hwf.2.2.1
  have hls := hwf.2.2.2.1
  have hlc := hwf.2.2.2.2.1
  have hlp := hwf.2.2.2.2.2.2.2.2.1
  have hlget := StWF_lookup_resolve st hwf size e h1 hmx he hklt hele
  have hsg256 := int_byte_of_small e (by omega)
  have hgpe : st.pools.get? e = some (st.pools.getD e ⟨0, []⟩) :=
    get?_eq_some_getD _ _ _ (by omega)
  have hgcnt : st.cell_count.get? e = some (st.cell_count.getD e 0) :=
    get?_eq_some_getD _ _ _ (by omega)
  conv_lhs => rw [allocFuel]
  rw [if_neg (by omega), if_neg (by omega), hlget]
  dsimp only
  rw [hsg256, if_neg (by omega), hgpe, hgcnt]

/-- Master characterization of `allocFuel` on a well-formed state, for a
request resolving to segment `e`: either some segment `sg ≥ e` has a free
cell — the first such segment is chosen (all segments in between are
full), the lowest free cell `c` of `sg` is returned at address
`base[sg] + c*size[sg]`, and exactly that cell becomes used — or every
segment from `e` up is full and the call returns null without changing the
state. -/
theorem allocFuel_spec (st : MState) (hwf : StWF st) :
    ∀ fuel size e, 1 ≤ size → size ≤ st.max_segment_size →
      e < st.segment_count →
      (∀ k, k < e → st.segment_sizes.getD k 0 < size) →
      size ≤ st.segment_sizes.getD e 0 →
      st.segment_count - e < fuel →
      (∃ sg c p2,
        e ≤ sg ∧ sg < st.segment_count ∧
        c < st.cell_count.getD sg 0 ∧
        stUsed st sg c = false ∧
        (∀ d, d < c → stUsed st sg d = true) ∧
        (∀ g, e ≤ g → g < sg → ∀ d, d < st.cell_count.getD g 0 → stUsed st g d = true) ∧
        allocFuel fuel st size = .ok (offsetOf st sg c) { st with pools := st.pools.set sg p2 } ∧
        PoolInv (st.cell_count.getD sg 0) p2 ∧
        (∀ sg2 d, stUsed { st with pools := st.pools.set sg p2 } sg2 d =
          (stUsed st sg2 d || (decide (sg2 = sg) && decide (d = c)))))
      ∨ ((∀ g, e ≤ g → g < st.segment_count → ∀ d, d < st.cell_count.getD g 0 →
            stUsed st g d = true) ∧
         allocFuel fuel st size = .fail st) := by
  intro fuel
  induction fuel with
  | zero =>
    intro size e h1 hmx he hklt hele hfuel
    omega
  | succ f ih =>
    intro size e h1 hmx he hklt hele hfuel
    have hc64 := hwf.2.2.1
    have hls := hwf.2.2.2.1
    have hlc := hwf.2.2.2.2.1
    have hlp := hwf.2.2.2.2.2.2.2.2.1
    have hcntb := hwf.2.2.2.2.2.2.2.2.2.2.2.1 e he
    set pe := st.pools.getD e ⟨0, []⟩ with hpedef
    have hpinv := hwf.2.2.2.2.2.2.2.2.2.2.2.2.2.2.2 e he
    rw [← hpedef] at hpinv
    have hunfold1 := allocFuel_unfold st hwf f size e h1 hmx he hklt hele
    rw [← hpedef] at hunfold1
    by_cases hfull : pe.groupMask = U32MAX
    · have hallused : ∀ d, d < st.cell_count.getD e 0 → stUsed st e d = true := by
        intro d hd
        have := (groupMask_full_iff (st.cell_count.getD e 0) pe hpinv (by omega) (by omega)).mp
          hfull d hd
        unfold stUsed
        rw [← hpedef]
        exact this
      by_cases hlast : e < st.segment_count - 1
      · have hgs2 : st.segment_sizes.get? (e+1) =
            some (st.segment_sizes.getD (e+1) 0) := get?_eq_some_getD _ _ _ (by omega)
        have hs2b := hwf.2.2.2.2.2.2.2.2.2.1 (e+1) (by omega)
        have hs2mx := StWF_size_le_max st hwf (e+1) (by omega)
        have hrec := ih (st.segment_sizes.getD (e+1) 0) (e+1) (by omega) hs2mx (by omega)
          (fun k hk => by
            by_cases hke : k = e
            · subst hke; exact StWF_sizes_mono st hwf k (k+1) (by omega) (by omega)
            · exact lt_trans (StWF_sizes_mono st hwf k e (by omega) he)
                (StWF_sizes_mono st hwf e (e+1) (by omega) (by omega)))
          (le_refl _) (by omega)
        have heq : allocFuel (f+1) st size = allocFuel f st (st.segment_sizes.getD (e+1) 0) := by
          rw [hunfold1, if_pos hfull, if_pos hlast, hgs2]
        rcases hrec with ⟨sg, c, p2, hesg, hsgc, hcc, hcu, hlow, hmid, heqr, hinv2, hupd⟩ | ⟨hall, heqr⟩
        · left
          refine ⟨sg, c, p2, by omega, hsgc, hcc, hcu, hlow, ?_, by rw [heq]; exact heqr, hinv2, hupd⟩
          intro g hg1 hg2 d hd
          by_cases hge : g = e
          · subst hge; exact hallused d hd
          · exact hmid g (by omega) hg2 d hd
        · right
          refine ⟨?_, by rw [heq]; exact heqr⟩
          intro g hg1 hg2 d hd
          by_cases hge : g = e
          · subst hge; exact hallused d hd
          · exact hall g (by omega) hg2 d hd
      · right
        have hecount : e = st.segment_count - 1 := by omega
        refine ⟨?_, ?_⟩
        · intro g hg1 hg2 d hd
          have : g = e := by omega
          subst this
          exact hallused d hd
        · rw [hunfold1, if_pos hfull, if_neg hlast]
    · obtain ⟨c, p2, hcore, hclt, hcfree, hclow, hinv2, hupd⟩ :=
        allocPoolCore_spec (st.cell_count.getD e 0) pe hpinv (by omega) (by omega) hfull
      have hgb : st.segment_base.get? e =
          some (st.segment_base.getD e 0) :=
        get?_eq_some_getD _ _ _ (by rw [StWF_base_length st hwf]; omega)
      have hgs : st.segment_sizes.get? e = some (st.segment_sizes.getD e 0) :=
        get?_eq_some_getD _ _ _ (by omega)
      left
      refine ⟨e, c, p2, le_refl e, he, hclt, ?_, ?_, ?_, ?_, hinv2, ?_⟩
      · unfold stUsed
        rw [← hpedef]
        exact hcfree
      · intro d hd
        unfold stUsed
        rw [← hpedef]
        exact hclow d hd
      · intro g hg1 hg2 d hd
        omega
      · rw [hunfold1, if_neg hfull, hcore, hgb, hgs]
        rfl
      · intro sg2 d
        unfold stUsed
        show poolUsed ((st.pools.set e p2).getD sg2 ⟨0, []⟩) d = _
        rw [getD_set_lt _ _ _ _ _ (by omega)]
        by_cases hsg2 : sg2 = e
        · subst hsg2
          rw [if_pos rfl, ← hpedef]
          simpa using hupd d
        · rw [if_neg hsg2]
          simp [hsg2]

/-- Every in-range request size resolves to some segment (the last
segment's size is the maximum). -/
theorem exists_resolve (st : MState) (hwf : StWF st) (size : Nat)
    (h1 : 1 ≤ size) (hmx : size ≤ st.max_segment_size) :
    ∃ e, e < st.segment_count ∧
      (∀ k, k < e → st.segment_sizes.getD k 0 < size) ∧
      size ≤ st.segment_sizes.getD e 0 := by
  have hc1 := hwf.2.1
  have hmxeq := hwf.2.2.2.2.2.2.2.2.2.2.2.2.1
  have hP : ∃ k, size ≤ st.segment_sizes.getD k 0 := ⟨st.segment_count - 1, by omega⟩
  refine ⟨Nat.find hP, ?_, ?_, Nat.find_spec hP⟩
  · have := Nat.find_min' hP (m := st.segment_count - 1) (by omega)
    omega
  · intro k hk
    have := Nat.find_min hP hk
    omega

/-- Inversion of a successful `alloc`: the returned pointer is the address
of a previously free cell of some segment, exactly that cell's bit is set,
and the rest of the state is untouched. -/
theorem allocFuel_ok_inv (st : MState) (hwf : StWF st) (fuel sz off : Nat) (st2 : MState)
    (hfuel : st.segment_count < fuel)
    (ha : allocFuel fuel st sz = .ok off st2) :
    ∃ sg c p2, sg < st.segment_count ∧ c < st.cell_count.getD sg 0 ∧
      stUsed st sg c = false ∧ off = offsetOf st sg c ∧
      st2 = { st with pools := st.pools.set sg p2 } ∧
      PoolInv (st.cell_count.getD sg 0) p2 ∧
      (∀ sg2 d, stUsed st2 sg2 d = (stUsed st sg2 d || (decide (sg2 = sg) && decide (d = c)))) := by
  have hc1 := hwf.2.1
  obtain ⟨f, rfl⟩ : ∃ f, fuel = f + 1 := ⟨fuel - 1, by omega⟩
  by_cases hbig : st.max_segment_size < sz
  · exfalso
    conv at ha => rw [allocFuel]
    rw [if_pos hbig] at ha
    simp at ha
  · by_cases hsz0 : sz = 0
    · exfalso
      subst hsz0
      conv at ha => rw [allocFuel]
      rw [if_neg hbig] at ha
      simp at ha
    · obtain ⟨e, he, hklt, hele⟩ := exists_resolve st hwf sz (by omega) (by omega)
      rcases allocFuel_spec st hwf (f+1) sz e (by omega) (by omega) he hklt hele (by omega) with
        ⟨sg, c, p2, hesg, hsgc, hcc, hcu, hlow, hmid, heqr, hinv2, hupd⟩ | ⟨hall, heqr⟩
      · rw [ha] at heqr
        injection heqr with hoff hst
        exact ⟨sg, c, p2, hsgc, hcc, hcu, hoff, hst, hinv2, by rw [hst]; exact hupd⟩
      · rw [ha] at heqr
        exact absurd heqr (by simp)

/-- Every state reachable by valid public operations is well-formed. -/
theorem reach_StWF (st : MState) (h : Reach st) : StWF st := by
  induction h with
  | beginOk st0 segs st h0 hnodup hpos hle hcnt hc1 hc64 heq =>
    obtain ⟨st3, heq2, hwf3, -⟩ := beginM_ok st0 segs h0 hnodup hpos hle hcnt hc1 hc64
    rw [heq] at heq2
    injection heq2 with h3
    rwa [← h3] at hwf3
  | alloc st sz off st2 h ha ih =>
    have hc64 := ih.2.2.1
    obtain ⟨sg, c, p2, hsg, hc, -, -, hst2, hinv2, -⟩ :=
      allocFuel_ok_inv st ih 65 sz off st2 (by omega) ha
    rw [hst2]
    exact StWF_set_pool st ih sg p2 hsg hinv2
  | release st sg c st2 h hsg hc hr ih =>
    obtain ⟨p2, heq2, hwf2, -⟩ := releaseM_spec st ih sg c hsg hc
    rw [hr] at heq2
    injection heq2 with h2
    rwa [← h2] at hwf2

/-! ### Round-trip bookkeeping over alloc/release histories -/

theorem map_eq_append_cons {α β : Type} (f : α → β) :
    ∀ (l : List α) (a : List β) (b : β) (c : List β),
      l.map f = a ++ b :: c →
      ∃ l1 x l2, l = l1 ++ x :: l2 ∧ l1.map f = a ∧ f x = b ∧ l2.map f = c := by
  intro l
  induction l with
  | nil =>
    intro a b c h
    simp at h
  | cons y rest ih =>
    intro a b c h
    match a with
    | [] =>
      simp at h
      exact ⟨[], y, rest, rfl, rfl, h.1, h.2⟩
    | a0 :: arest =>
      simp at h
      obtain ⟨l1, x, l2, hsplit, hm1, hm2, hm3⟩ := ih arest b c h.2
      exact ⟨y :: l1, x, l2, by rw [hsplit]; rfl, by simp [h.1, hm1], hm2, hm3⟩

/-- Bookkeeping invariant over an alloc/release history on an allocator
whose pools all have at most 256 cells (so release's `uint8_t cellIndex`
truncation is the identity on valid indices): the outstanding offsets are
the addresses of a duplicate-free list of cells that were free at the
start, and the used-cell sets differ from the start state by exactly those
cells. -/
theorem trace_invariant (st st2 : MState) (live : List Nat) (hwf : StWF st)
    (hcnt256 : ∀ i, i < st.segment_count → st.cell_count.getD i 0 ≤ 256)
    (ht : Trace st st2 live) :
    StWF st2 ∧
    st2.segment_count = st.segment_count ∧ st2.segment_sizes = st.segment_sizes ∧
    st2.cell_count = st.cell_count ∧ st2.segment_base = st.segment_base ∧
    st2.max_segment_size = st.max_segment_size ∧
    ∃ Cells : List (Nat × Nat),
      Cells.map (fun pc => offsetOf st pc.1 pc.2) = live ∧
      Cells.Nodup ∧
      (∀ pc, pc ∈ Cells → pc.1 < st.segment_count ∧ pc.2 < st.cell_count.getD pc.1 0 ∧
        stUsed st pc.1 pc.2 = false) ∧
      (∀ sg c, stUsed st2 sg c = (stUsed st sg c || decide ((sg, c) ∈ Cells))) := by
  induction ht with
  | nil =>
    refine ⟨hwf, rfl, rfl, rfl, rfl, rfl, [], rfl, List.nodup_nil, ?_, ?_⟩
    · intro pc hpc
      simp at hpc
    · intro sg c
      simp
  | alloc st1 stb live1 sz off h ha ih =>
    obtain ⟨hwf1, hcount, hsizes, hcnts, hbase, hmax, Cells, hmap, hnodup, hvalid, hused⟩ := ih
    have hc64 := hwf1.2.2.1
    obtain ⟨sg, c, p2, hsg, hc, hfree1, hoff, hst2, hinv2, hupd⟩ :=
      allocFuel_ok_inv st1 hwf1 65 sz off stb (by omega) ha
    have hoffeq : offsetOf st1 sg c = offsetOf st sg c := by
      unfold offsetOf
      rw [hsizes, hbase]
    have hfree0 : stUsed st sg c = false ∧ (sg, c) ∉ Cells := by
      have := hused sg c
      rw [hfree1] at this
      constructor
      · cases hv : stUsed st sg c
        · rfl
        · rw [hv] at this; simp at this
      · intro hmem
        simp [hmem] at this
    refine ⟨?_, ?_, ?_, ?_, ?_, ?_, (sg, c) :: Cells, ?_, ?_, ?_, ?_⟩
    · rw [hst2]
      exact StWF_set_pool st1 hwf1 sg p2 hsg hinv2
    · rw [hst2]; exact hcount
    · rw [hst2]; exact hsizes
    · rw [hst2]; exact hcnts
    · rw [hst2]; exact hbase
    · rw [hst2]; exact hmax
    · show offsetOf st sg c :: Cells.map (fun pc => offsetOf st pc.1 pc.2) = off :: live1
      rw [hmap, hoff, hoffeq]
    · exact List.nodup_cons.mpr ⟨hfree0.2, hnodup⟩
    · intro pc hpc
      rcases List.mem_cons.mp hpc with rfl | hmem
      · exact ⟨by omega, by rw [← hcnts]; exact hc, hfree0.1⟩
      · exact hvalid pc hmem
    · intro sg2 d
      rw [hupd sg2 d, hused sg2 d]
      by_cases hd : (sg2, d) = (sg, c)
      · have h1 : sg2 = sg := by simpa using congrArg Prod.fst hd
        have h2 : d = c := by simpa using congrArg Prod.snd hd
        simp [h1, h2]
      · have : ¬ (sg2 = sg ∧ d = c) := by
          intro hcon
          exact hd (by rw [hcon.1, hcon.2])
        by_cases h1 : sg2 = sg
        · have h2 : ¬ d = c := fun hh => this ⟨h1, hh⟩
          simp [h1, h2, hd]
        · simp [h1, hd]
  | release st1 stb l1 l2 off h hr ih =>
    obtain ⟨hwf1, hcount, hsizes, hcnts, hbase, hmax, Cells, hmap, hnodup, hvalid, hused⟩ := ih
    obtain ⟨C1, pc, C2, hsplit, hm1, hm2, hm3⟩ :=
      map_eq_append_cons (fun pc => offsetOf st pc.1 pc.2) Cells l1 off l2 hmap
    have hpcmem : pc ∈ Cells := by
      rw [hsplit]
      exact List.mem_append.mpr (Or.inr (List.mem_cons_self _ _))
    obtain ⟨hpc1, hpc2, hpcfree⟩ := hvalid pc hpcmem
    have hc256 : st.cell_count.getD pc.1 0 ≤ 256 := hcnt256 pc.1 hpc1
    have hmod : pc.2 % 256 = pc.2 := Nat.mod_eq_of_lt (by omega)
    obtain ⟨p2, heq2, hwf2, hupd⟩ :=
      releaseM_spec st1 hwf1 pc.1 pc.2 (by omega) (by rw [hcnts]; exact hpc2)
    have hoffeq : offsetOf st1 pc.1 pc.2 = offsetOf st pc.1 pc.2 := by
      unfold offsetOf
      rw [hsizes, hbase]
    rw [hoffeq, hm2, hr] at heq2
    injection heq2 with hstb
    have hnodupS : (C1 ++ pc :: C2).Nodup := hsplit ▸ hnodup
    have hnodup2 : (C1 ++ C2).Nodup :=
      List.Nodup.sublist (List.Sublist.append_left (List.sublist_cons_self _ _) C1) hnodupS
    have hpcnot : pc ∉ C1 ++ C2 := by
      intro hmem
      have hsp := List.nodup_append.mp hnodupS
      rcases List.mem_append.mp hmem with hm | hm
      · exact (hsp.2.2 hm) (List.mem_cons_self _ _)
      · exact (List.nodup_cons.mp hsp.2.1).1 hm
    refine ⟨?_, ?_, ?_, ?_, ?_, ?_, C1 ++ C2, ?_, hnodup2, ?_, ?_⟩
    · rw [hstb]; exact hwf2
    · rw [hstb]; exact hcount
    · rw [hstb]; exact hsizes
    · rw [hstb]; exact hcnts
    · rw [hstb]; exact hbase
    · rw [hstb]; exact hmax
    · rw [List.map_append, hm1, hm3]
    · intro qc hqc
      apply hvalid
      rw [hsplit]
      rcases List.mem_append.mp hqc with hm | hm
      · exact List.mem_append.mpr (Or.inl hm)
      · exact List.mem_append.mpr (Or.inr (List.mem_cons_of_mem _ hm))
    · intro sg c
      have hu := hupd sg c
      rw [← hstb] at hu
      rw [hu, hused sg c, hmod]
      clear hu
      by_cases hd : (sg, c) = pc
      · have h1 : sg = pc.1 := by rw [← hd]
        have h2 : c = pc.2 := by rw [← hd]
        have hnot : (sg, c) ∉ C1 ++ C2 := by rw [hd]; exact hpcnot
        simp [h1, h2, hpcfree, hnot]
        exact ⟨fun hm => hpcnot (List.mem_append.mpr (Or.inl hm)),
          fun hm => hpcnot (List.mem_append.mpr (Or.inr hm))⟩
      · have hmemiff : ((sg, c) ∈ Cells) = ((sg, c) ∈ C1 ++ C2) := by
          apply propext
          rw [hsplit]
          constructor
          · intro hm
            rcases List.mem_append.mp hm with hm2 | hm2
            · exact List.mem_append.mpr (Or.inl hm2)
            · rcases List.mem_cons.mp hm2 with hm3 | hm3
              · exact absurd hm3 hd
              · exact List.mem_append.mpr (Or.inr hm3)
          · intro hm
            rcases List.mem_append.mp hm with hm2 | hm2
            · exact List.mem_append.mpr (Or.inl hm2)
            · exact List.mem_append.mpr (Or.inr (List.mem_cons_of_mem _ hm2))
        simp only [hmemiff]
        by_cases hq : sg = pc.1 ∧ c = pc.2
        · exact absurd (by rw [hq.1, hq.2]) hd
        · by_cases hq1 : sg = pc.1
          · have hq2 : ¬ c = pc.2 := fun hh => hq ⟨hq1, hh⟩
            simp [hq1, hq2]
          · simp [hq1]

/-! ### Exhaustive allocation on a single segment -/

/-- Auxiliary induction for C6: on a well-formed single-segment state in
which exactly the cells below `k` are used, the next `n = cnt - k`
consecutive allocations of the segment's size return the cells
`k, k+1, …, cnt-1` in order, ending with every cell used. -/
theorem c6_aux : ∀ n (st : MState), StWF st → st.segment_count = 1 →
    ∀ k, k + n = st.cell_count.getD 0 0 →
    (∀ d, d < st.cell_count.getD 0 0 → stUsed st 0 d = decide (d < k)) →
    ∃ stN, allocList st (st.segment_sizes.getD 0 0) n =
        some ((List.range' k n).map (fun c => offsetOf st 0 c), stN) ∧
      StWF stN ∧ stN.segment_count = 1 ∧
      stN.segment_sizes = st.segment_sizes ∧ stN.cell_count = st.cell_count ∧
      stN.max_segment_size = st.max_segment_size ∧
      (∀ d, d < st.cell_count.getD 0 0 → stUsed stN 0 d = true) := by
  intro n
  induction n with
  | zero =>
    intro st hwf hone k hsum hused
    refine ⟨st, rfl, hwf, hone, rfl, rfl, rfl, ?_⟩
    intro d hd
    have := hused d hd
    simpa [show d < k by omega] using this
  | succ n ih =>
    intro st hwf hone k hsum hused
    have hc1 := hwf.2.1
    have hmxeq := hwf.2.2.2.2.2.2.2.2.2.2.2.2.1
    have hszb := hwf.2.2.2.2.2.2.2.2.2.1 0 (by omega)
    set s := st.segment_sizes.getD 0 0 with hsdef
    have hmx0 : st.max_segment_size = s := by
      rw [hmxeq, hone]
    have hklt : k < st.cell_count.getD 0 0 := by omega
    rcases allocFuel_spec st hwf 65 s 0 (by omega) (by omega) (by omega)
        (fun j hj => absurd hj (Nat.not_lt_zero j)) (le_refl s) (by omega)
      with ⟨sg, c, p2, hsge, hsglt, hclt, hfree, hbelow, hbetween, heqr, hinv2, hupd⟩
      | ⟨hall, heqr⟩
    · have hsg0 : sg = 0 := by omega
      subst hsg0
      have hck : c = k := by
        by_contra hne
        rcases Nat.lt_or_ge c k with hlt | hge
        · have := hused c hclt
          rw [hfree] at this
          simp [hlt] at this
        · have hkc : k < c := by omega
          have h1 := hbelow k hkc
          have h2 := hused k hklt
          rw [h1] at h2
          simp at h2
      subst hck
      set st1 : MState := { st with pools := st.pools.set 0 p2 } with hst1def
      have hwf1 : StWF st1 := StWF_set_pool st hwf 0 p2 (by omega) hinv2
      have hone1 : st1.segment_count = 1 := hone
      have hs1 : st1.segment_sizes.getD 0 0 = s := rfl
      have hcnt1 : st1.cell_count.getD 0 0 = st.cell_count.getD 0 0 := rfl
      have hused1 : ∀ d, d < st1.cell_count.getD 0 0 →
          stUsed st1 0 d = decide (d < c + 1) := by
        intro d hd
        rw [hcnt1] at hd
        have := hupd 0 d
        rw [hused d hd] at this
        rw [this]
        by_cases hdk : d = c
        · simp [hdk]
        · rcases Nat.lt_or_ge d c with h | h
          · simp [hdk, h, Nat.lt_succ_of_lt h]
          · have h1 : ¬ d < c := by omega
            have h2 : ¬ d < c + 1 := by omega
            simp [hdk, h1, h2]
      obtain ⟨stN, hlist, hwfN, honeN, hsizesN, hcntN, hmaxN, husedN⟩ :=
        ih st1 hwf1 hone1 (c+1) (by rw [hcnt1]; omega) hused1
      refine ⟨stN, ?_, hwfN, honeN, hsizesN, hcntN, hmaxN, ?_⟩
      · unfold allocList
        rw [heqr]
        dsimp only
        rw [hs1] at hlist
        rw [hlist]
        dsimp only
        have hoeq : ∀ c, offsetOf st1 0 c = offsetOf st 0 c := fun c => rfl
        rw [List.range'_succ]
        simp only [List.map_cons, hoeq]
      · intro d hd
        exact husedN d hd
    · exfalso
      have := hall 0 (le_refl 0) (by omega) k hklt
      rw [hused k hklt] at this
      simp at this

/-! ### Claim theorems -/

/-- C1 (code_bug): the claim states that a failed `begin` (and `clean`)
leaves the object uninitialized and that a subsequent `begin` on the same
instance is permitted and can succeed.  Evaluating the code at the failing
inputs shows the opposite: `mempool::begin` sets `_initialized = true`
before the descriptor-validation loop (mempool.cpp:74) and
`mempool::clean` never resets `_initialized` (mempool.cpp:11-25), so after
a validation failure such as `begin([{count:1, size:0}], 1)` — and equally
after a successful `begin` followed by `clean()` — the object still
reports initialized and every subsequent `begin`, however valid, returns
false at the `if (_initialized)` guard. -/
theorem c1_initialized_stuck :
    (beginM {} [⟨1, 0⟩]).isFail = true ∧
    (beginState [⟨1, 0⟩]).initialized = true ∧
    (beginM (beginState [⟨1, 0⟩]) [⟨1, 1⟩]).isFail = true ∧
    (beginM {} [⟨1, 1⟩]).isOk = true ∧
    (cleanM (beginState [⟨1, 1⟩])).initialized = true ∧
    (beginM (cleanM (beginState [⟨1, 1⟩])) [⟨1, 1⟩]).isFail = true := by decide

/-- C2 (counterexample): the recovery is NOT exact for every valid cell
index: in a pool of 4-byte cells (power-of-two shift path), the offset of
cell index 256 is recovered as 0 — `cellIndex` is a `uint8_t` in
mempool::release. -/
theorem c2_counterexample :
    offsetToCellIndex 4 (256 * 4) = 0 ∧ offsetToCellIndex 4 (256 * 4) ≠ 256 := by decide

/-- C2 (amended): for every legal resolved cell size `4*u` (`u = 1..16`,
covering both the power-of-two shift path and the magic-number path, with
the magic number and shift exactly as mempool::begin computes them) and
every cell index `i < 256`, applying release's offset-to-cell-index
recovery to the offset `i * cellSize` yields exactly `i`.  (Beyond index
255 the `uint8_t cellIndex` truncation makes recovery return `i % 256`.) -/
theorem c2_offset_recovery_exact (u : Nat) (h1 : 1 ≤ u) (h16 : u ≤ 16)
    (i : Nat) (hi : i < 256) :
    offsetToCellIndex (4 * u) (i * (4 * u)) = i := by
  have := recovery_mod u (by omega) i (by omega) h1
  rwa [Nat.mod_eq_of_lt hi] at this

theorem c2_offset_recovery_exact_witness :
    1 ≤ 3 ∧ 3 ≤ 16 ∧ 7 < 256 ∧ offsetToCellIndex (4 * 3) (7 * (4 * 3)) = 7 :=
  ⟨by decide, by decide, by decide, c2_offset_recovery_exact 3 (by decide) (by decide) 7 (by decide)⟩

/-- C3 (code_bug): the claim (and the header comment of mempool.h: the
segments "are sorted by size in strictly increasing order during
initialization") states the stored resolved sizes are strictly increasing
even with duplicate descriptor sizes.  Evaluating `begin` on descriptors
with a duplicate size shows otherwise: `_get_next_segment` can never
select the second descriptor of a tied size (it requires a size strictly
greater than the last placed one), so it falls back to returning index 0
and `begin` re-places descriptor 0: the table for unit sizes `[3, 3, 5]`
comes out as `[12, 20, 12]` — not sorted at all — while `begin` still
reports success. -/
theorem c3_duplicates_unsorted :
    (beginM {} [⟨1, 3⟩, ⟨1, 3⟩, ⟨1, 5⟩]).isOk = true ∧
    (beginState [⟨1, 3⟩, ⟨1, 3⟩, ⟨1, 5⟩]).segment_sizes = [12, 20, 12] ∧
    ¬ List.Pairwise (· < ·) (beginState [⟨1, 3⟩, ⟨1, 3⟩, ⟨1, 5⟩]).segment_sizes := by decide

/-- C4 (code_bug): the claim states `begin` fails when `count = 0` or when
some descriptor's cell count is 0.  The code checks neither:
a descriptor with cell count 0 is accepted (`begin` returns true and
stores the 0 cell count), and for `count = 0` the code reads
`_segment_sizes[count - 1]` with `count - 1 = -1` after integer promotion
(mempool.cpp:100) — an out-of-bounds access, modelled as `ub`. -/
theorem c4_missing_validation :
    (beginM {} [⟨0, 1⟩]).isOk = true ∧
    (beginState [⟨0, 1⟩]).cell_count = [0] ∧
    beginM {} ([] : List segment) = .ub := by decide

/-- C5: after every operation on an initialized allocator — a valid
`begin`, any successful `alloc`, and any `release` with valid arguments
(the address of a cell of one of the pools) — every pool's bitmap is
coherent: group-mask bit g is set iff all 32 bits of cell-mask word g are
set, the padding bits beyond `cellCount` in the last cell-mask word are 1,
and the padding bits beyond `(cellCount+31)/32` in the group mask are 1. -/
theorem c5_mask_invariant (st : MState) (h : Reach st) :
    ∀ sg, sg < st.segment_count →
      (∀ g, g < numGroups (st.cell_count.getD sg 0) →
        (((st.pools.getD sg ⟨0, []⟩).groupMask.testBit g = true) ↔
          (∀ b, b < 32 → ((st.pools.getD sg ⟨0, []⟩).cellMasks.getD g 0).testBit b = true))) ∧
      (∀ c, st.cell_count.getD sg 0 ≤ c → c < 32 * numGroups (st.cell_count.getD sg 0) →
        poolUsed (st.pools.getD sg ⟨0, []⟩) c = true) ∧
      (∀ g, g < 32 → numGroups (st.cell_count.getD sg 0) ≤ g →
        (st.pools.getD sg ⟨0, []⟩).groupMask.testBit g = true) := by
  have hwf := reach_StWF st h
  intro sg hsg
  obtain ⟨hplen, hgm, hwlt, hcoh, hgpad, hcpad⟩ :=
    hwf.2.2.2.2.2.2.2.2.2.2.2.2.2.2.2 sg hsg
  refine ⟨?_, ?_, hgpad⟩
  · intro g hg
    exact (hcoh g hg).trans (eq_U32MAX_iff _ (hwlt g hg))
  · intro c h1 h2
    exact hcpad c h2 h1

theorem c5_mask_invariant_witness :
    ((exSt.pools.getD 0 ⟨0, []⟩).groupMask.testBit 31 = true) ∧
    (poolUsed (exSt.pools.getD 0 ⟨0, []⟩) 4 = true) :=
  have hreach : Reach exSt :=
    Reach.beginOk {} [⟨4, 1⟩, ⟨2, 4⟩] exSt (by decide) (by decide) (by decide)
      (by decide) (by decide) (by decide) (by decide) rfl
  ⟨(c5_mask_invariant exSt hreach 0 (by decide)).2.2 31 (by decide) (by decide),
   (c5_mask_invariant exSt hreach 0 (by decide)).2.1 4 (by decide) (by decide)⟩

/-- C6: for an allocator initialized with a single segment of `cnt` cells
of resolved size `4*u` bytes (unit size `u`, `1 ≤ u ≤ 16`,
`1 ≤ cnt ≤ 992`), `cnt` consecutive `alloc(4*u)` calls all succeed and
return the addresses `0, 4*u, 2*(4*u), …` — pairwise distinct and
non-overlapping, since consecutive returned addresses differ by at least
the cell size — and the `(cnt+1)`-th call returns null. -/
theorem c6_exhaustive_allocation (u cnt : Nat) (hu1 : 1 ≤ u) (hu16 : u ≤ 16)
    (hcl : 1 ≤ cnt) (hch : cnt ≤ 992) :
    ∃ st stN,
      beginM {} [⟨cnt, u⟩] = .ok st ∧
      allocList st (4 * u) cnt =
        some ((List.range cnt).map (fun c => c * (4 * u)), stN) ∧
      List.Pairwise (fun a b => a + 4 * u ≤ b)
        ((List.range cnt).map (fun c => c * (4 * u))) ∧
      allocFuel 65 stN (4 * u) = .fail stN := by
  obtain ⟨st, heq, hwf, hcount, hslen, hprov, hfree⟩ :=
    beginM_ok {} [⟨cnt, u⟩] rfl (by simp)
      (by intro s hs; rw [List.mem_singleton] at hs; subst hs; exact hu1)
      (by intro s hs; rw [List.mem_singleton] at hs; subst hs; exact hu16)
      (by intro s hs; rw [List.mem_singleton] at hs; subst hs; exact ⟨hcl, hch⟩)
      (by simp) (by simp)
  have hlc : st.cell_count.length = st.segment_count := hwf.2.2.2.2.1
  have hcount1 : st.segment_count = 1 := by simpa using hcount
  have hslen1 : st.segment_sizes.length = 1 := by simpa using hslen
  have hzl : 0 < (st.segment_sizes.zip st.cell_count).length := by
    rw [List.length_zip]
    omega
  have hz := List.getElem_zip (h := hzl)
  have hmem : (st.segment_sizes.getD 0 0, st.cell_count.getD 0 0) ∈
      st.segment_sizes.zip st.cell_count := by
    rw [getD_eq_getElem _ _ _ (by omega), getD_eq_getElem _ _ _ (by omega), ← hz]
    exact List.getElem_mem hzl
  obtain ⟨s0, hs0mem, hsz0, hcnt0⟩ := hprov _ hmem
  have hs0 : s0 = ⟨cnt, u⟩ := by simpa using hs0mem
  subst hs0
  have hsz0' : st.segment_sizes.getD 0 0 = u * 4 := hsz0
  have hcnt0' : st.cell_count.getD 0 0 = cnt := hcnt0
  obtain ⟨stN, hlist, hwfN, honeN, hsizesN, hcntN, hmaxN, husedN⟩ :=
    c6_aux cnt st hwf hcount1 0 (by omega)
      (by intro d hd; rw [hfree 0 d (by omega) hd]; simp)
  have hb0 := StWF_base_zero st hwf
  have hoeq : ∀ c, offsetOf st 0 c = c * (4 * u) := by
    intro c
    unfold offsetOf
    rw [hb0, hsz0']
    ring
  rw [hsz0', show u * 4 = 4 * u from Nat.mul_comm u 4] at hlist
  simp only [hoeq] at hlist
  rw [← List.range_eq_range'] at hlist
  have hmxeq := hwf.2.2.2.2.2.2.2.2.2.2.2.2.1
  have hmx0 : st.max_segment_size = u * 4 := by
    rw [hmxeq, hcount1]
    exact hsz0'
  have hsN : stN.segment_sizes.getD 0 0 = u * 4 := by rw [hsizesN, hsz0']
  have hmxN : stN.max_segment_size = u * 4 := by rw [hmaxN, hmx0]
  refine ⟨st, stN, heq, hlist, ?_, ?_⟩
  · rw [List.pairwise_map]
    apply List.Pairwise.imp ?_ (List.pairwise_lt_range cnt)
    intro a b hab
    calc a * (4 * u) + 4 * u = (a + 1) * (4 * u) := by ring
      _ ≤ b * (4 * u) := mul_le_mul_right' (Nat.succ_le_of_lt hab) (4 * u)
  · rcases allocFuel_spec stN hwfN 65 (4 * u) 0 (by omega) (by omega) (by omega)
        (fun j hj => absurd hj (Nat.not_lt_zero j)) (by omega) (by omega)
      with ⟨sg, c, p2, hsge, hsglt, hclt, hfree2, -, -, -, -, -⟩ | ⟨-, hf⟩
    · exfalso
      have hsg0 : sg = 0 := by omega
      subst hsg0
      rw [hcntN, hcnt0'] at hclt
      have := husedN c (by omega)
      rw [this] at hfree2
      simp at hfree2
    · exact hf

theorem c6_exhaustive_allocation_witness :
    ∃ st stN,
      beginM {} [⟨2, 1⟩] = .ok st ∧
      allocList st (4 * 1) 2 =
        some ((List.range 2).map (fun c => c * (4 * 1)), stN) ∧
      List.Pairwise (fun a b => a + 4 * 1 ≤ b)
        ((List.range 2).map (fun c => c * (4 * 1))) ∧
      allocFuel 65 stN (4 * 1) = .fail stN :=
  c6_exhaustive_allocation 1 2 (by decide) (by decide) (by decide) (by decide)

/-- C7: (i) when `alloc` resolves a request to a segment `e` whose group
mask is entirely 1, it retries the whole allocation using the next
segment's resolved size when a strictly larger segment exists
(`e < count-1`) and returns null when none does; (ii) in particular, with
two segments of resolved sizes `4*u1 < 4*u2` each of capacity 1, after the
small cell is allocated (at offset 0), every request of size at most
`4*u1` succeeds by returning the larger pool's cell (at offset `4*u1`). -/
theorem c7_escalation :
    (∀ st : MState, StWF st → ∀ f size e, 1 ≤ size → size ≤ st.max_segment_size →
      e < st.segment_count →
      (∀ k, k < e → st.segment_sizes.getD k 0 < size) →
      size ≤ st.segment_sizes.getD e 0 →
      (st.pools.getD e ⟨0, []⟩).groupMask = U32MAX →
      allocFuel (f+1) st size =
        (if e < st.segment_count - 1 then
          allocFuel f st (st.segment_sizes.getD (e+1) 0)
        else .fail st)) ∧
    (∀ u1 u2, 1 ≤ u1 → u1 < u2 → u2 ≤ 16 →
      ∃ st st1, beginM {} [⟨1, u1⟩, ⟨1, u2⟩] = .ok st ∧
        allocFuel 65 st (4 * u1) = .ok 0 st1 ∧
        ∀ sz, 1 ≤ sz → sz ≤ 4 * u1 →
          ∃ st2, allocFuel 65 st1 sz = .ok (4 * u1) st2) := by
  constructor
  · intro st hwf f size e h1 hmx he hklt hele hfull
    have hls := hwf.2.2.2.1
    rw [allocFuel_unfold st hwf f size e h1 hmx he hklt hele, if_pos hfull]
    by_cases hlt : e < st.segment_count - 1
    · rw [if_pos hlt, if_pos hlt]
      rw [get?_eq_some_getD st.segment_sizes (e+1) 0 (by omega)]
    · rw [if_neg hlt, if_neg hlt]
  · intro u1 u2 hu1 hu12 hu16
    obtain ⟨st, heq, hwf, hcount, hslen, hprov, hfree⟩ :=
      beginM_ok {} [⟨1, u1⟩, ⟨1, u2⟩] rfl
        (by show ([u1, u2] : List Nat).Nodup
            simp
            omega)
        (by intro s hs
            simp at hs
            rcases hs with h | h
            · subst h; exact hu1
            · subst h; show 1 ≤ u2; omega)
        (by intro s hs
            simp at hs
            rcases hs with h | h
            · subst h; show u1 ≤ 16; omega
            · subst h; exact hu16)
        (by intro s hs
            simp at hs
            rcases hs with h | h <;> subst h <;>
              exact ⟨Nat.le_refl 1, (by norm_num : (1 : Nat) ≤ 992)⟩)
        (by simp) (by simp)
    have hlc : st.cell_count.length = st.segment_count := hwf.2.2.2.2.1
    have hcount2 : st.segment_count = 2 := by simpa using hcount
    have hslen2 : st.segment_sizes.length = 2 := by simpa using hslen
    have hpairI : ∀ i, i < 2 →
        ((st.segment_sizes.getD i 0 = u1 * 4 ∨ st.segment_sizes.getD i 0 = u2 * 4) ∧
         st.cell_count.getD i 0 = 1) := by
      intro i hi
      have hzl : i < (st.segment_sizes.zip st.cell_count).length := by
        rw [List.length_zip]
        omega
      have hz := List.getElem_zip (h := hzl)
      have hmem : (st.segment_sizes.getD i 0, st.cell_count.getD i 0) ∈
          st.segment_sizes.zip st.cell_count := by
        rw [getD_eq_getElem _ _ _ (by omega), getD_eq_getElem _ _ _ (by omega), ← hz]
        exact List.getElem_mem hzl
      obtain ⟨s0, hs0mem, hszi, hcnti⟩ := hprov _ hmem
      simp at hs0mem
      rcases hs0mem with h | h
      · subst h
        exact ⟨Or.inl hszi, hcnti⟩
      · subst h
        exact ⟨Or.inr hszi, hcnti⟩
    have hmono := StWF_sizes_mono st hwf 0 1 (by omega) (by omega)
    have hs0 : st.segment_sizes.getD 0 0 = u1 * 4 := by
      rcases (hpairI 0 (by omega)).1 with h | h
      · exact h
      · exfalso
        rcases (hpairI 1 (by omega)).1 with h2 | h2 <;> omega
    have hs1 : st.segment_sizes.getD 1 0 = u2 * 4 := by
      rcases (hpairI 1 (by omega)).1 with h | h
      · exfalso
        omega
      · exact h
    have hcnt0 : st.cell_count.getD 0 0 = 1 := (hpairI 0 (by omega)).2
    have hcnt1 : st.cell_count.getD 1 0 = 1 := (hpairI 1 (by omega)).2
    have hmxeq := hwf.2.2.2.2.2.2.2.2.2.2.2.2.1
    have hmx : st.max_segment_size = u2 * 4 := by
      rw [hmxeq, hcount2]
      exact hs1
    have hb0 := StWF_base_zero st hwf
    have hb1 : st.segment_base.getD 1 0 = u1 * 4 := by
      have := StWF_base_adjacent st hwf 0 (by omega)
      rw [hb0, hs0, hcnt0] at this
      simpa using this
    -- first allocation: the single cell of segment 0
    rcases allocFuel_spec st hwf 65 (4 * u1) 0 (by omega) (by omega) (by omega)
        (fun j hj => absurd hj (Nat.not_lt_zero j)) (by omega) (by omega)
      with ⟨sg, c, p2, hsge, hsglt, hclt, hfr, hbelow, hbetween, heqr, hinv2, hupd⟩
      | ⟨hall, heqr⟩
    · have hsg0 : sg = 0 := by
        by_contra hne
        have hsg1 : sg = 1 := by omega
        have := hbetween 0 (by omega) (by omega) 0 (by omega)
        rw [hfree 0 0 (by omega) (by omega)] at this
        simp at this
      subst hsg0
      have hc0 : c = 0 := by
        rw [hcnt0] at hclt
        omega
      subst hc0
      set st1 : MState := { st with pools := st.pools.set 0 p2 } with hst1def
      have hoff0 : offsetOf st 0 0 = 0 := by
        unfold offsetOf
        rw [hb0]
        simp
      rw [hoff0] at heqr
      refine ⟨st, st1, heq, heqr, ?_⟩
      intro sz hsz1 hszle
      have hwf1 : StWF st1 := StWF_set_pool st hwf 0 p2 (by omega) hinv2
      have hused1 : ∀ g d, stUsed st1 g d = (stUsed st g d || (decide (g = 0) && decide (d = 0))) :=
        hupd
      have hq1 : st1.segment_count = 2 := hcount2
      have hq2 : st1.max_segment_size = u2 * 4 := hmx
      have hq3 : st1.segment_sizes.getD 0 0 = u1 * 4 := hs0
      have hq4 : st1.cell_count.getD 0 0 = 1 := hcnt0
      have hq5 : st1.cell_count.getD 1 0 = 1 := hcnt1
      rcases allocFuel_spec st1 hwf1 65 sz 0 (by omega) (by omega) (by omega)
          (fun j hj => absurd hj (Nat.not_lt_zero j)) (by omega) (by omega)
        with ⟨sg', c', p2', hsge', hsglt', hclt', hfr', hbelow', hbetween', heqr', hinv2', hupd'⟩
        | ⟨hall', heqr'⟩
      · have hsg1 : sg' = 1 := by
          by_contra hne
          have hsg0' : sg' = 0 := by omega
          subst hsg0'
          have hc0' : c' = 0 := by omega
          subst hc0'
          rw [hused1 0 0, hfree 0 0 (by omega) (by omega)] at hfr'
          simp at hfr'
        subst hsg1
        have hc0' : c' = 0 := by omega
        subst hc0'
        have hoff1 : offsetOf st1 1 0 = 4 * u1 := by
          unfold offsetOf
          have hq6 : st1.segment_base.getD 1 0 = u1 * 4 := hb1
          rw [hq6]
          ring
        rw [hoff1] at heqr'
        exact ⟨_, heqr'⟩
      · exfalso
        have := hall' 1 (by omega) (by omega) 0 (by omega)
        rw [hused1 1 0, hfree 1 0 (by omega) (by omega)] at this
        simp at this
    · exfalso
      have := hall 0 (by omega) (by omega) 0 (by omega)
      rw [hfree 0 0 (by omega) (by omega)] at this
      simp at this

theorem c7_escalation_witness :
    (allocFuel 65 escSt1 4 =
      (if 0 < escSt1.segment_count - 1 then
        allocFuel 64 escSt1 (escSt1.segment_sizes.getD 1 0)
      else .fail escSt1)) ∧
    (∃ st st1, beginM {} [⟨1, 1⟩, ⟨1, 4⟩] = .ok st ∧
      allocFuel 65 st (4 * 1) = .ok 0 st1 ∧
      ∀ sz, 1 ≤ sz → sz ≤ 4 * 1 →
        ∃ st2, allocFuel 65 st1 sz = .ok (4 * 1) st2) :=
  ⟨c7_escalation.1 escSt1 (by decide) 64 4 0 (by decide) (by decide) (by decide)
      (fun j hj => absurd hj (Nat.not_lt_zero j)) (by decide) (by decide),
   c7_escalation.2 1 4 (by decide) (by decide) (by decide)⟩

theorem trace_of_allocList (st : MState) (sz : Nat) :
    ∀ n st1 live offs st2, Trace st st1 live →
      allocList st1 sz n = some (offs, st2) →
      Trace st st2 (offs.reverse ++ live) := by
  intro n
  induction n with
  | zero =>
    intro st1 live offs st2 ht h
    unfold allocList at h
    injection h with h
    injection h with h1 h2
    subst h2
    rw [← h1]
    simpa using ht
  | succ n ih =>
    intro st1 live offs st2 ht h
    unfold allocList at h
    cases ha : allocFuel 65 st1 sz with
    | ok off st' =>
      rw [ha] at h
      dsimp only at h
      cases hb : allocList st' sz n with
      | some r =>
        obtain ⟨offs', st3⟩ := r
        rw [hb] at h
        dsimp only at h
        injection h with h
        injection h with h1 h2
        subst h2
        rw [← h1]
        have ht2 : Trace st st' (off :: live) := Trace.alloc st st1 st' live sz off ht ha
        have := ih st' (off :: live) offs' st3 ht2 hb
        simpa [List.append_assoc] using this
      | none =>
        rw [hb] at h
        simp at h
    | ub =>
      rw [ha] at h
      simp at h
    | fuelout =>
      rw [ha] at h
      simp at h
    | fail st' =>
      rw [ha] at h
      simp at h

theorem trace_of_releaseList (st : MState) :
    ∀ offs st1 st2, Trace st st1 offs → releaseList st1 offs = some st2 →
      Trace st st2 [] := by
  intro offs
  induction offs with
  | nil =>
    intro st1 st2 ht h
    unfold releaseList at h
    injection h with h
    subst h
    exact ht
  | cons off rest ih =>
    intro st1 st2 ht h
    unfold releaseList at h
    cases hr : releaseM st1 off with
    | some st' =>
      rw [hr] at h
      dsimp only at h
      have ht2 : Trace st st' rest :=
        Trace.release st st1 st' [] rest off ht hr
      exact ih st' st2 ht2 h
    | none =>
      rw [hr] at h
      simp at h

set_option maxRecDepth 1000000 in
/-- C8 (counterexample): the round-trip property fails on a single-segment
pool of 257 cells of 4 bytes: allocating all 257 cells and then releasing
all 257 returned pointers (each pointer released exactly once, newest
first) is a sequence of alloc/release pairs in which every pointer is
released before reuse, yet afterwards cell 256 is still marked used (its
release decremented to cell index `256 % 256 = 0` through the `uint8_t
cellIndex` of mempool::release), so the free-cell set is NOT restored. -/
theorem c8_counterexample :
    Trace big257 c8finalState [] ∧
    stUsed big257 0 256 = false ∧
    stUsed c8finalState 0 256 = true := by
  have h1 : allocList big257 4 257 = some (c8offs, c8midState) := by
    unfold c8offs c8midState
    rfl
  have h2 : releaseList c8midState c8offs.reverse = some c8finalState := by
    unfold c8finalState
    rfl
  refine ⟨?_, by decide, by decide⟩
  have ht1 : Trace big257 c8midState (c8offs.reverse ++ []) :=
    trace_of_allocList big257 4 257 big257 [] c8offs c8midState (Trace.nil big257) h1
  rw [List.append_nil] at ht1
  exact trace_of_releaseList big257 c8offs.reverse c8midState c8finalState ht1 h2

/-- C8 (amended): on a well-formed allocator in which every segment has at
most 256 cells — the regime in which release's `uint8_t cellIndex` is
lossless — (i) any alloc/release history in which every returned pointer
is released before reuse restores the used/free map exactly (no leakage,
no corruption), and (ii) releasing an allocated cell below which every
cell is used (so it becomes the lowest free cell of its segment) and then
allocating its size again returns exactly the freed address. -/
theorem c8_round_trip (st : MState) (hwf : StWF st)
    (hcnt256 : ∀ i, i < st.segment_count → st.cell_count.getD i 0 ≤ 256) :
    (∀ st2, Trace st st2 [] → ∀ sg c, stUsed st2 sg c = stUsed st sg c) ∧
    (∀ sg c, sg < st.segment_count → c < st.cell_count.getD sg 0 →
      stUsed st sg c = true → (∀ d, d < c → stUsed st sg d = true) →
      ∃ st1, releaseM st (offsetOf st sg c) = some st1 ∧
        ∃ st2, allocFuel 65 st1 (st.segment_sizes.getD sg 0) =
          .ok (offsetOf st sg c) st2) := by
  constructor
  · intro st2 ht sg c
    obtain ⟨-, -, -, -, -, -, Cells, hmap, -, -, hused⟩ :=
      trace_invariant st st2 [] hwf hcnt256 ht
    have hcells : Cells = [] := List.map_eq_nil_iff.mp hmap
    subst hcells
    rw [hused sg c]
    simp
  · intro sg c hsg hc husedc hlow
    have hc256 : c < 256 := by
      have := hcnt256 sg hsg
      omega
    obtain ⟨p2, hrel, hwf1, hupd⟩ := releaseM_spec st hwf sg c hsg hc
    set st1 : MState := { st with pools := st.pools.set sg p2 } with hst1def
    refine ⟨st1, hrel, ?_⟩
    have hcmod : c % 256 = c := Nat.mod_eq_of_lt hc256
    have hused1 : ∀ sg2 d, stUsed st1 sg2 d =
        (stUsed st sg2 d && !(decide (sg2 = sg) && decide (d = c))) := by
      intro sg2 d
      rw [hupd sg2 d, hcmod]
    have hc64 := hwf.2.2.1
    have hq1 : st1.segment_count = st.segment_count := rfl
    have hq2 : st1.max_segment_size = st.max_segment_size := rfl
    have hq3 : st1.segment_sizes = st.segment_sizes := rfl
    have hq4 : st1.cell_count = st.cell_count := rfl
    have hszb := hwf.2.2.2.2.2.2.2.2.2.1 sg hsg
    have hsle := StWF_size_le_max st hwf sg hsg
    set s := st.segment_sizes.getD sg 0 with hsdef
    have hs1 : st1.segment_sizes.getD sg 0 = s := rfl
    rcases allocFuel_spec st1 hwf1 65 s sg (by omega) (by omega) (by omega)
        (by intro k hk
            show st.segment_sizes.getD k 0 < s
            exact StWF_sizes_mono st hwf k sg hk (by omega))
        (le_of_eq hs1.symm) (by omega)
      with ⟨sg', c', p2', hsge', hsglt', hclt', hfr', hbelow', hbetween', heqr', hinv2', hupd'⟩
      | ⟨hall', heqr'⟩
    · have hfreec : stUsed st1 sg c = false := by
        rw [hused1 sg c, husedc]
        simp
      have hsg'eq : sg' = sg := by
        by_contra hne
        have hlt : sg < sg' := by omega
        have := hbetween' sg (le_refl sg) hlt c (by rw [hq4]; exact hc)
        rw [hfreec] at this
        simp at this
      subst hsg'eq
      have hc'eq : c' = c := by
        by_contra hne
        rcases Nat.lt_or_ge c' c with hlt | hge
        · have := hlow c' hlt
          rw [hused1 sg' c'] at hfr'
          rw [this] at hfr'
          have hnec : ¬ c' = c := hne
          simp [hnec] at hfr'
        · have hcc : c < c' := by omega
          have := hbelow' c hcc
          rw [hfreec] at this
          simp at this
      subst hc'eq
      have hoeq : offsetOf st1 sg' c' = offsetOf st sg' c' := rfl
      rw [hoeq] at heqr'
      exact ⟨_, heqr'⟩
    · exfalso
      have := hall' sg (le_refl sg) (by omega) c (by rw [hq4]; exact hc)
      have hfreec : stUsed st1 sg c = false := by
        rw [hused1 sg c, husedc]
        simp
      rw [hfreec] at this
      simp at this

set_option maxRecDepth 100000 in
theorem c8_round_trip_witness :
    (∀ sg c, stUsed exRoundTrip sg c = stUsed exSt sg c) ∧
    (∃ st1, releaseM exAlloc1 (offsetOf exAlloc1 0 0) = some st1 ∧
      ∃ st2, allocFuel 65 st1 (exAlloc1.segment_sizes.getD 0 0) =
        .ok (offsetOf exAlloc1 0 0) st2) := by
  constructor
  · have htr : Trace exSt exRoundTrip [] := by
      have ha : allocFuel 65 exSt 4 = .ok 0 exAlloc1 := by
        unfold exAlloc1
        rfl
      have hr : releaseM exAlloc1 0 = some exRoundTrip := by
        unfold exRoundTrip
        rfl
      have ht1 : Trace exSt exAlloc1 [0] :=
        Trace.alloc exSt exSt exAlloc1 [] 4 0 (Trace.nil exSt) ha
      exact Trace.release exSt exAlloc1 exRoundTrip [] [] 0 ht1 hr
    exact (c8_round_trip exSt (by decide) (by decide)).1 exRoundTrip htr
  · exact (c8_round_trip exAlloc1 (by decide) (by decide)).2 0 0 (by decide) (by decide)
      (by decide) (fun d hd => absurd hd (Nat.not_lt_zero d))

/-- C9: on an initialized (well-formed) allocator, for every request size
with `1 ≤ size ≤ max_segment_size` the lookup-table index
`((size + SEGMENT_STEP - 1) >> SEGMENT_LOG2) - 1` computed by
mempool::alloc is within `[0, lookup-table length)`, so the table access
is in bounds; for `size = 0` the expression evaluates to −1 (out of
bounds), so the guarantee requires `size ≥ 1`. -/
theorem c9_lookup_index_bounds (st : MState) (hwf : StWF st) :
    (∀ size, 1 ≤ size → size ≤ st.max_segment_size →
      0 ≤ lookupIndexC size ∧ lookupIndexC size < st.segment_lookup.length) ∧
    lookupIndexC 0 = -1 := by
  have hc1 := hwf.2.1
  have hmaxb := hwf.2.2.2.2.2.2.2.2.2.1 (st.segment_count - 1) (by omega)
  have hmxeq := hwf.2.2.2.2.2.2.2.2.2.2.2.2.1
  have hlook := hwf.2.2.2.2.2.2.2.2.2.2.2.2.2.1
  have hlen : st.segment_lookup.length = st.max_segment_size / SEGMENT_STEP := by
    rw [hlook]
    unfold buildLookup
    simp
  constructor
  · intro size h1 hmx
    rw [hlen]
    show 0 ≤ ((size : Int) + 4 - 1) / 4 - 1 ∧
      ((size : Int) + 4 - 1) / 4 - 1 < ((st.max_segment_size / 4 : Nat) : Int)
    have e1 : ((size : Int) + 4 - 1) / 4 = (((size + 3) / 4 : Nat) : Int) := by
      omega
    rw [e1]
    have h2 : 1 ≤ (size + 3) / 4 := by omega
    have h3 : (size + 3) / 4 ≤ st.max_segment_size / 4 := by omega
    constructor
    · omega
    · have h4 : (size + 3) / 4 - 1 < st.max_segment_size / 4 := by omega
      omega
  · decide

theorem c9_lookup_index_bounds_witness :
    (0 ≤ lookupIndexC 5 ∧ lookupIndexC 5 < exSt.segment_lookup.length) ∧
    lookupIndexC 0 = -1 :=
  ⟨(c9_lookup_index_bounds exSt (by decide)).1 5 (by decide) (by decide),
   (c9_lookup_index_bounds exSt (by decide)).2⟩

/-- C10: on a well-formed initialized allocator every `alloc` call
terminates: each escalation step re-enters alloc with the next segment's
strictly larger resolved size, which resolves to a strictly larger segment
index, so recursion depth is bounded by the segment count — fuel
`_segment_count + 1` is never exhausted. -/
theorem c10_alloc_terminates (st : MState) (hwf : StWF st) (size fuel : Nat)
    (hfuel : st.segment_count < fuel) :
    allocFuel fuel st size ≠ .fuelout := by
  have hc1 := hwf.2.1
  obtain ⟨f, rfl⟩ : ∃ f, fuel = f + 1 := ⟨fuel - 1, by omega⟩
  by_cases hbig : st.max_segment_size < size
  · have heq : allocFuel (f+1) st size = .fail st := by
      conv_lhs => rw [allocFuel]
      rw [if_pos hbig]
    rw [heq]
    simp
  · by_cases hsz0 : size = 0
    · have heq : allocFuel (f+1) st size = .ub := by
        conv_lhs => rw [allocFuel]
        rw [if_neg hbig, if_pos hsz0]
      rw [heq]
      simp
    · obtain ⟨e, he, hklt, hele⟩ := exists_resolve st hwf size (by omega) (by omega)
      rcases allocFuel_spec st hwf (f+1) size e (by omega) (by omega) he hklt hele (by omega)
        with ⟨sg, c, p2, -, -, -, -, -, -, heqr, -, -⟩ | ⟨-, heqr⟩
      · rw [heqr]
        simp
      · rw [heqr]
        simp

theorem c10_alloc_terminates_witness :
    allocFuel 65 exSt 4 ≠ AllocOut.fuelout :=
  c10_alloc_terminates exSt (by decide) 4 65 (by decide)

end Mempool
